import Mathlib

/-!
Verification of the TSP integer-programming formulation notebook.

The source notebook builds, from a list `sites` of string labels containing
the designated origin label `'org'` and a distance dictionary `distances`
keyed by ordered pairs `(a, b)` with `a ≠ b`:

* binary edge variables `x = LpVariable.dicts('x', distances, 0, 1, LpBinary)`,
* degree constraints: for every `k` in `sites`,
  `lpSum([x[(i,k)] for i in sites if (i,k) in x]) == 1` and
  `lpSum([x[(k,i)] for i in sites if (k,i) in x]) == 1`,
* order variables `u = LpVariable.dicts('u', sites, 0, len(sites)-1, LpInteger)`,
* Miller–Tucker–Zemlin subtour-elimination constraints: for `i` and `j`
  ranging over `sites`, when `i != j and (i != 'org' and j != 'org') and (i,j) in x`,
  `u[i] - u[j] <= N*(1 - x[(i,j)]) - 1` with `N = len(sites)`,
* and a tour-reconstruction loop that starts at `'org'`, repeatedly picks the
  first unvisited `k` with `x[(org,k)].varValue == 1`, pops it from
  `sites_left`, finally appends the literal `'org'`, and computes
  `tour_legs = [distances[(tour[i-1], tour[i])] for i in range(1, len(tour))]`.

The definitions below are a shallow embedding of those cells.  The model
builder is embedded over an arbitrary label type with decidable equality,
with the designated origin as a parameter (the notebook instantiates it with
the string `'org'`); the tour decoder is embedded over `String`, keeping the
notebook's hard-coded `'org'` literals where they occur.
-/

namespace TSPNotebook

variable {S : Type} [DecidableEq S]

/-- The key set of the `distances` dictionary:
`dict(((a,b), ...) for a in sites for b in sites if a != b)`. -/
def allPairs (sites : List S) : List (S × S) :=
  sites.flatMap (fun a => (sites.filter (fun b => decide (a ≠ b))).map (fun b => (a, b)))

/-- Index list of the inbound degree sum for site `k`:
`[i for i in sites if (i,k) in x]` (the variable dictionary `x` is keyed by
the distance-key list `dom`). -/
def inTerms (sites : List S) (dom : List (S × S)) (k : S) : List S :=
  sites.filter (fun i => decide ((i, k) ∈ dom))

/-- Index list of the outbound degree sum for site `k`:
`[i for i in sites if (k,i) in x]`. -/
def outTerms (sites : List S) (dom : List (S × S)) (k : S) : List S :=
  sites.filter (fun i => decide ((k, i) ∈ dom))

/-- Value of the inbound degree sum `lpSum([x[(i,k)] for i in sites if (i,k) in x])`
at a 0/1 assignment `xb` of the binary edge variables. -/
def degIn (sites : List S) (dom : List (S × S)) (xb : S → S → Bool) (k : S) : ℤ :=
  ((inTerms sites dom k).map (fun i => if xb i k then (1 : ℤ) else 0)).sum

/-- Value of the outbound degree sum `lpSum([x[(k,i)] for i in sites if (k,i) in x])`. -/
def degOut (sites : List S) (dom : List (S × S)) (xb : S → S → Bool) (k : S) : ℤ :=
  ((outTerms sites dom k).map (fun i => if xb k i then (1 : ℤ) else 0)).sum

/-- Satisfaction of the degree-constraint loop: for every `k` in `sites`,
the inbound sum and the outbound sum both equal `1`. -/
def DegreeSat (sites : List S) (dom : List (S × S)) (xb : S → S → Bool) : Prop :=
  ∀ k ∈ sites, degIn sites dom xb k = 1 ∧ degOut sites dom xb k = 1

/-- Syntactic form of a constraint added by the degree-constraint loop:
an inbound or outbound equality for a site `k` with its list of summed
partner sites. -/
inductive DegCon (S : Type) where
  | inb (k : S) (terms : List S)
  | outb (k : S) (terms : List S)
deriving DecidableEq

/-- The list of constraints added by the degree-constraint loop, in program
order: for each `k` the inbound equality then the outbound equality. -/
def degCons (sites : List S) (dom : List (S × S)) : List (DegCon S) :=
  sites.flatMap (fun k =>
    [DegCon.inb k (inTerms sites dom k), DegCon.outb k (outTerms sites dom k)])

/-- Truth of one degree constraint at a 0/1 assignment. -/
def evalDegCon (xb : S → S → Bool) : DegCon S → Prop
  | DegCon.inb k terms => (terms.map (fun i => if xb i k then (1 : ℤ) else 0)).sum = 1
  | DegCon.outb k terms => (terms.map (fun i => if xb k i then (1 : ℤ) else 0)).sum = 1

/-- The ordered pairs for which the subtour-elimination loop adds a
constraint: `i != j and (i != org and j != org) and (i,j) in x`, with `i`
and `j` ranging over `sites` in program order. -/
def mtzPairs (sites : List S) (dom : List (S × S)) (org : S) : List (S × S) :=
  sites.flatMap (fun i =>
    ((sites.filter (fun j =>
      decide (i ≠ j) && decide (i ≠ org) && decide (j ≠ org) && decide ((i, j) ∈ dom))).map
        (fun j => (i, j))))

/-- Right-hand side `N*(1 - x[(i,j)]) - 1` of one subtour-elimination
constraint, at a 0/1 assignment. -/
def mtzBound (N : ℤ) (xb : S → S → Bool) (i j : S) : ℤ :=
  N * (1 - (if xb i j then (1 : ℤ) else 0)) - 1

/-- Satisfaction of the subtour-elimination loop at assignments `xb` for the
edge variables and `u` for the order variables. -/
def MTZSat (sites : List S) (dom : List (S × S)) (org : S)
    (xb : S → S → Bool) (u : S → ℤ) : Prop :=
  ∀ i ∈ sites, ∀ j ∈ sites,
    i ≠ j → i ≠ org → j ≠ org → (i, j) ∈ dom →
      u i - u j ≤ mtzBound (sites.length : ℤ) xb i j

/-- The declared domain `[0, len(sites)-1]` of the integer order variables
`u = LpVariable.dicts('u', sites, 0, len(sites)-1, LpInteger)`. -/
def UBounds (sites : List S) (u : S → ℤ) : Prop :=
  ∀ i ∈ sites, 0 ≤ u i ∧ u i ≤ (sites.length : ℤ) - 1

/-- A 0/1 edge assignment is feasible for the assembled model (with the
complete distance matrix) when it satisfies the degree constraints and some
in-bounds order assignment satisfies every subtour-elimination constraint. -/
def FeasibleModel (sites : List S) (org : S) (xb : S → S → Bool) : Prop :=
  DegreeSat sites (allPairs sites) xb ∧
    ∃ u : S → ℤ, UBounds sites u ∧ MTZSat sites (allPairs sites) org xb u

/-- The edge assignment satisfying only the degree constraints (the model
before the subtour-elimination cell runs). -/
def DegreeOnly (sites : List S) (xb : S → S → Bool) : Prop :=
  DegreeSat sites (allPairs sites) xb

/-- The directed edge list of a cyclic tour represented by the list `p`:
each element paired with its cyclic successor. -/
def cycEdges (p : List S) : List (S × S) :=
  p.zip (p.tail ++ p.take 1)

/-- Specification-side definition: the 0/1 assignment `xb` is a single
Hamiltonian cycle through all sites starting and ending at `org` — there is
an ordering `p` of the sites, starting at `org`, such that on the variable
domain (ordered pairs of distinct sites) `xb` is exactly the indicator of
the cyclic edges of `p`. -/
def IsHamCycle (sites : List S) (org : S) (xb : S → S → Bool) : Prop :=
  ∃ p : List S, p.Perm sites ∧ p.head? = some org ∧
    ∀ i ∈ sites, ∀ j ∈ sites, i ≠ j → (xb i j = true ↔ (i, j) ∈ cycEdges p)

/-- Specification-side definition: the nonempty duplicate-free list `c` of
at least two sites is a closed cycle of selected edges of `xb`. -/
def IsCycleIn (sites : List S) (xb : S → S → Bool) (c : List S) : Prop :=
  2 ≤ c.length ∧ c.Nodup ∧ c ⊆ sites ∧ ∀ e ∈ cycEdges c, xb e.1 e.2 = true

/-- Specification-side definition: the assignment contains two
vertex-disjoint sub-cycles. -/
def ContainsDisjointSubcycles (sites : List S) (xb : S → S → Bool) : Prop :=
  ∃ c₁ c₂ : List S, IsCycleIn sites xb c₁ ∧ IsCycleIn sites xb c₂ ∧
    ∀ s ∈ c₁, s ∉ c₂

/-- The unique selected successor of site `k` under a degree-feasible
assignment (the first `j` in `sites` with `j ≠ k` and `xb k j`). -/
def nextS (sites : List S) (xb : S → S → Bool) (k : S) : S :=
  (sites.find? (fun j => decide (j ≠ k) && xb k j)).getD k

/-- The comparison the tour-reconstruction cell applies to a solver value:
`x[(org,k)].varValue == 1`, an exact equality test. -/
def codeEdgeTest (v : ℚ) : Bool :=
  decide (v = 1)

/-- `for k in sites_left: if x[(org,k)].varValue == 1: ... break` — the first
element of `left` whose edge value from `cur` passes the code's test. -/
def findNext (xv : String × String → ℚ) (cur : String) (left : List String) :
    Option String :=
  left.find? (fun k => codeEdgeTest (xv (cur, k)))

/-- Fuel-indexed embedding of the `while len(sites_left) > 0` reconstruction
loop, returning the list of sites appended after the starting site.  When no
unvisited site passes the edge test the Python loop rechecks the unchanged
state forever; that divergence (and only it, for sufficient fuel) is
modelled by `none`. -/
def decodeLoop (xv : String × String → ℚ) :
    ℕ → String → List String → Option (List String)
  | 0, _, left => if left.isEmpty then some [] else none
  | fuel + 1, cur, left =>
    if left.isEmpty then some []
    else
      match findNext xv cur left with
      | some k => (decodeLoop xv fuel k (left.erase k)).map (fun r => k :: r)
      | none => none

/-- The tour-reconstruction cell, with the starting site (bound to the
literal `'org'` at `org = 'org'` in the notebook) as a parameter: pop the
starting site, follow selected edges, and close with the literal `'org'`.
`sites_left.index(org)` raises when the starting site is absent; that is
modelled by `none`. -/
def decodeTourFrom (sites : List String) (xv : String × String → ℚ)
    (org₀ : String) : Option (List String) :=
  if org₀ ∈ sites then
    (decodeLoop xv sites.length org₀ (sites.erase org₀)).map
      (fun r => org₀ :: r ++ ["org"])
  else none

/-- The tour-reconstruction cell as run by the notebook, whose line
`org = 'org'` starts the walk at the literal `'org'`. -/
def decodeTour (sites : List String) (xv : String × String → ℚ) :
    Option (List String) :=
  decodeTourFrom sites xv "org"

/-- One iteration of the reconstruction loop as a transition on the state
`(tour, sites_left, org)`: when some unvisited site passes the edge test it
is appended to the tour and simultaneously popped from `sites_left`;
otherwise the state is unchanged (the loop spins, or has finished). -/
def decodeStep (xv : String × String → ℚ) :
    List String × List String × String → List String × List String × String
  | (tour, left, cur) =>
    if left.isEmpty then (tour, left, cur)
    else
      match findNext xv cur left with
      | some k => (tour ++ [k], left.erase k, k)
      | none => (tour, left, cur)

/-- The loop state after the initialisation cell lines
`sites_left = sites.copy(); tour = []; tour.append(sites_left.pop(sites_left.index(org)))`. -/
def decodeInit (sites : List String) (org₀ : String) :
    List String × List String × String :=
  ([org₀], sites.erase org₀, org₀)

/-- The consecutive pairs `(tour[i-1], tour[i])` for `i in range(1, len(tour))`. -/
def legPairs (t : List String) : List (String × String) :=
  t.zip t.tail

/-- `tour_legs = [distances[(tour[i-1], tour[i])] for i in range(1, len(tour))]`,
with a missing dictionary key (a `KeyError`) modelled by `none`. -/
def tourLegs (dOpt : String × String → Option ℤ) :
    List (String × String) → Option (List ℤ)
  | [] => some []
  | pr :: rest =>
    match dOpt pr, tourLegs dOpt rest with
    | some v, some vs => some (v :: vs)
    | _, _ => none

/-! ### Counting helpers -/

lemma sum_ite_one_zero (l : List S) (p : S → Bool) :
    (l.map (fun a => if p a then (1 : ℤ) else 0)).sum = (l.countP p : ℤ) := by
  induction l with
  | nil => simp
  | cons a l ih =>
    by_cases h : p a = true <;>
      simp [List.countP_cons, h, ih] <;> push_cast <;> ring

lemma countP_eq_one_of_unique {α : Type} :
    ∀ (l : List α) (p : α → Bool) (a : α), l.Nodup → a ∈ l → p a = true →
      (∀ b ∈ l, p b = true → b = a) → l.countP p = 1 := by
  intro l p a
  induction l with
  | nil => intro _ ha; cases ha
  | cons x xs ih =>
    intro hnd hmem hpa huniq
    rcases List.mem_cons.mp hmem with rfl | ha'
    · have hxs : xs.countP p = 0 := List.countP_eq_zero.mpr (by
        intro b hb hpb
        have hba := huniq b (List.mem_cons_of_mem _ hb) hpb
        subst hba
        exact (List.nodup_cons.mp hnd).1 hb)
      simp [List.countP_cons, hpa, hxs]
    · have hx : ¬ p x = true := by
        intro hpx
        have hxa := huniq x (List.mem_cons_self _ _) hpx
        subst hxa
        exact (List.nodup_cons.mp hnd).1 ha'
      have := ih (List.nodup_cons.mp hnd).2 ha' hpa
        (fun b hb hpb => huniq b (List.mem_cons_of_mem _ hb) hpb)
      simp [List.countP_cons, hx, this]

lemma exists_of_countP_eq_one {α : Type} :
    ∀ (l : List α) (p : α → Bool), l.countP p = 1 →
      ∃ a ∈ l, p a = true ∧ ∀ b ∈ l, p b = true → b = a := by
  intro l p
  induction l with
  | nil => intro h; simp [List.countP_nil] at h
  | cons x xs ih =>
    intro h
    rw [List.countP_cons] at h
    by_cases hx : p x = true
    · have hxs : xs.countP p = 0 := by
        rw [if_pos hx] at h; omega
      refine ⟨x, List.mem_cons_self _ _, hx, ?_⟩
      intro b hb hpb
      rcases List.mem_cons.mp hb with rfl | hb'
      · rfl
      · exact absurd hpb (List.countP_eq_zero.mp hxs b hb')
    · have hxs : xs.countP p = 1 := by
        rw [if_neg hx] at h; omega
      obtain ⟨a, ha, hpa, huniq⟩ := ih hxs
      refine ⟨a, List.mem_cons_of_mem _ ha, hpa, ?_⟩
      intro b hb hpb
      rcases List.mem_cons.mp hb with rfl | hb'
      · exact absurd hpb hx
      · exact huniq b hb' hpb

lemma find?_eq_some_of_unique :
    ∀ (l : List S) (p : S → Bool) (a : S), a ∈ l → p a = true →
      (∀ b ∈ l, p b = true → b = a) → l.find? p = some a := by
  intro l p a
  induction l with
  | nil => intro ha; cases ha
  | cons x xs ih =>
    intro hmem hpa huniq
    by_cases hx : p x = true
    · have hxa := huniq x (List.mem_cons_self _ _) hx
      subst hxa
      simp [List.find?, hx]
    · have hax : a ∈ xs := by
        rcases List.mem_cons.mp hmem with rfl | h
        · exact absurd hpa hx
        · exact h
      have := ih hax hpa (fun b hb hpb => huniq b (List.mem_cons_of_mem _ hb) hpb)
      simp [List.find?, hx, this]

/-! ### The complete distance-key list -/

lemma mem_allPairs {sites : List S} {a b : S} :
    (a, b) ∈ allPairs sites ↔ a ∈ sites ∧ b ∈ sites ∧ a ≠ b := by
  simp only [allPairs, List.mem_flatMap, List.mem_map, List.mem_filter,
    decide_eq_true_eq, Prod.mk.injEq]
  constructor
  · rintro ⟨i, hi, j, ⟨hj, hij⟩, rfl, rfl⟩
    exact ⟨hi, hj, hij⟩
  · rintro ⟨ha, hb, hab⟩
    exact ⟨a, ha, b, ⟨hb, hab⟩, rfl, rfl⟩

lemma degIn_eq_countP {sites : List S} {k : S} (hk : k ∈ sites)
    (xb : S → S → Bool) :
    degIn sites (allPairs sites) xb k
      = (sites.countP (fun i => decide (i ≠ k) && xb i k) : ℤ) := by
  rw [degIn, inTerms, sum_ite_one_zero, List.countP_filter]
  congr 1
  apply List.countP_congr
  intro i hi
  by_cases hik : i = k
  · subst hik
    simp [mem_allPairs]
  · by_cases hx : xb i k = true <;> simp [hx, mem_allPairs, hi, hk, hik]

lemma degOut_eq_countP {sites : List S} {k : S} (hk : k ∈ sites)
    (xb : S → S → Bool) :
    degOut sites (allPairs sites) xb k
      = (sites.countP (fun i => decide (i ≠ k) && xb k i) : ℤ) := by
  rw [degOut, outTerms, sum_ite_one_zero, List.countP_filter]
  congr 1
  apply List.countP_congr
  intro i hi
  by_cases hik : i = k
  · subst hik
    simp [mem_allPairs]
  · have hki : k ≠ i := fun h => hik h.symm
    by_cases hx : xb k i = true <;> simp [hx, mem_allPairs, hi, hk, hik, hki]

/-! ### Zipped successor lists -/

lemma zip_fst_unique :
    ∀ (l₁ l₂ : List S), l₁.Nodup →
      ∀ {i j₁ j₂ : S}, (i, j₁) ∈ l₁.zip l₂ → (i, j₂) ∈ l₁.zip l₂ → j₁ = j₂ := by
  intro l₁
  induction l₁ with
  | nil => intro l₂ _ i j₁ j₂ h; simp at h
  | cons a l ih =>
    intro l₂ hnd i j₁ j₂ h₁ h₂
    cases l₂ with
    | nil => simp at h₁
    | cons b l₂' =>
      rcases List.mem_cons.mp h₁ with he₁ | ht₁ <;>
        rcases List.mem_cons.mp h₂ with he₂ | ht₂
      · rw [Prod.mk.injEq] at he₁ he₂
        rw [he₁.2, he₂.2]
      · exfalso
        rw [Prod.mk.injEq] at he₁
        have : a ∈ l := by
          have := (List.of_mem_zip ht₂).1
          rwa [← he₁.1]
        exact (List.nodup_cons.mp hnd).1 this
      · exfalso
        rw [Prod.mk.injEq] at he₂
        have : a ∈ l := by
          have := (List.of_mem_zip ht₁).1
          rwa [← he₂.1]
        exact (List.nodup_cons.mp hnd).1 this
      · exact ih l₂' (List.nodup_cons.mp hnd).2 ht₁ ht₂

lemma zip_snd_unique :
    ∀ (l₁ l₂ : List S), l₂.Nodup →
      ∀ {i₁ i₂ j : S}, (i₁, j) ∈ l₁.zip l₂ → (i₂, j) ∈ l₁.zip l₂ → i₁ = i₂ := by
  intro l₁
  induction l₁ with
  | nil => intro l₂ _ i₁ i₂ j h; simp at h
  | cons a l ih =>
    intro l₂ hnd i₁ i₂ j h₁ h₂
    cases l₂ with
    | nil => simp at h₁
    | cons b l₂' =>
      rcases List.mem_cons.mp h₁ with he₁ | ht₁ <;>
        rcases List.mem_cons.mp h₂ with he₂ | ht₂
      · rw [Prod.mk.injEq] at he₁ he₂
        rw [he₁.1, he₂.1]
      · exfalso
        rw [Prod.mk.injEq] at he₁
        have : b ∈ l₂' := by
          have := (List.of_mem_zip ht₂).2
          rwa [← he₁.2]
        exact (List.nodup_cons.mp hnd).1 this
      · exfalso
        rw [Prod.mk.injEq] at he₂
        have : b ∈ l₂' := by
          have := (List.of_mem_zip ht₁).2
          rwa [← he₂.2]
        exact (List.nodup_cons.mp hnd).1 this
      · exact ih l₂' (List.nodup_cons.mp hnd).2 ht₁ ht₂

lemma zip_fst_exists :
    ∀ (l₁ l₂ : List S), l₁.length ≤ l₂.length →
      ∀ {i : S}, i ∈ l₁ → ∃ j, (i, j) ∈ l₁.zip l₂ := by
  intro l₁
  induction l₁ with
  | nil => intro l₂ _ i h; cases h
  | cons a l ih =>
    intro l₂ hlen i hi
    cases l₂ with
    | nil => simp at hlen
    | cons b l₂' =>
      rcases List.mem_cons.mp hi with rfl | h
      · exact ⟨b, List.mem_cons_self _ _⟩
      · obtain ⟨j, hj⟩ := ih l₂' (by simpa using hlen) h
        exact ⟨j, List.mem_cons_of_mem _ hj⟩

lemma zip_snd_exists :
    ∀ (l₁ l₂ : List S), l₂.length ≤ l₁.length →
      ∀ {j : S}, j ∈ l₂ → ∃ i, (i, j) ∈ l₁.zip l₂ := by
  intro l₁
  induction l₁ with
  | nil =>
    intro l₂ hlen j h
    cases l₂ with
    | nil => cases h
    | cons b l₂' => simp at hlen
  | cons a l ih =>
    intro l₂ hlen j hj
    cases l₂ with
    | nil => cases hj
    | cons b l₂' =>
      rcases List.mem_cons.mp hj with rfl | h
      · exact ⟨a, List.mem_cons_self _ _⟩
      · obtain ⟨i, hi⟩ := ih l₂' (by simpa using hlen) h
        exact ⟨i, List.mem_cons_of_mem _ hi⟩

lemma zip_left_trunc (l₁ rest l₂ : List S) (h : l₁.length = l₂.length) :
    (l₁ ++ rest).zip l₂ = l₁.zip l₂ := by
  have := @List.zip_append S S l₁ rest l₂ [] h
  simpa using this

/-! ### Cyclic edge lists -/

lemma cycEdges_mem_fst {p : List S} {e : S × S} (h : e ∈ cycEdges p) : e.1 ∈ p := by
  obtain ⟨i, j⟩ := e
  exact (List.of_mem_zip h).1

lemma cycEdges_mem_snd {p : List S} {e : S × S} (h : e ∈ cycEdges p) : e.2 ∈ p := by
  obtain ⟨i, j⟩ := e
  have h2 := (List.of_mem_zip h).2
  rcases List.mem_append.mp h2 with ht | hk
  · exact List.mem_of_mem_tail ht
  · exact List.take_subset _ _ hk

lemma cycEdges_eq (p : List S) (hp : p ≠ []) :
    cycEdges p = p.zip p.tail ++ [(p.getLast hp, p.head hp)] := by
  obtain ⟨a, l, rfl⟩ := List.exists_cons_of_ne_nil hp
  have hlen : (a :: l).dropLast.length = l.length := by
    simp [List.length_dropLast]
  have hsplit : (a :: l) = (a :: l).dropLast ++ [(a :: l).getLast (by simp)] :=
    (List.dropLast_append_getLast _).symm
  have h0 : cycEdges (a :: l) = (a :: l).zip (l ++ [a]) := by
    simp [cycEdges]
  have h1 : (a :: l).zip (l ++ [a])
      = (a :: l).dropLast.zip l ++ [((a :: l).getLast (by simp), a)] := by
    conv_lhs => rw [hsplit]
    rw [List.zip_append hlen]
    simp
  have h2 : (a :: l).zip l = (a :: l).dropLast.zip l := by
    conv_lhs => rw [hsplit]
    exact zip_left_trunc _ _ _ hlen
  rw [h0, h1, ← h2]
  rfl

lemma cycEdges_fst_unique {p : List S} (hnd : p.Nodup) {i j₁ j₂ : S}
    (h₁ : (i, j₁) ∈ cycEdges p) (h₂ : (i, j₂) ∈ cycEdges p) : j₁ = j₂ :=
  zip_fst_unique _ _ hnd h₁ h₂

lemma cycEdges_snd_unique {p : List S} (hnd : p.Nodup) {i₁ i₂ j : S}
    (h₁ : (i₁, j) ∈ cycEdges p) (h₂ : (i₂, j) ∈ cycEdges p) : i₁ = i₂ := by
  cases p with
  | nil => simp [cycEdges] at h₁
  | cons a l =>
    refine zip_snd_unique _ (l ++ (a :: l).take 1) ?_ h₁ h₂
    have := List.nodup_cons.mp hnd
    simp [List.take_cons_succ, List.nodup_append, this.1, this.2]

lemma cycEdges_fst_exists {p : List S} {i : S} (hi : i ∈ p) :
    ∃ j, (i, j) ∈ cycEdges p := by
  cases p with
  | nil => cases hi
  | cons a l =>
    refine zip_fst_exists _ _ ?_ hi
    simp [List.take_cons_succ]

lemma cycEdges_snd_exists {p : List S} {j : S} (hj : j ∈ p) :
    ∃ i, (i, j) ∈ cycEdges p := by
  cases p with
  | nil => cases hj
  | cons a l =>
    refine zip_snd_exists _ _ ?_ ?_
    · simp [List.take_cons_succ]
    · rcases List.mem_cons.mp hj with rfl | h
      · simp [List.take_cons_succ]
      · simp [List.take_cons_succ, h]

lemma zip_rot_ne :
    ∀ (l : List S) (w z : S), w ≠ z → w ∉ l → z ∉ l → l.Nodup →
      ∀ {i j : S}, (i, j) ∈ (w :: l).zip (l ++ [z]) → i ≠ j := by
  intro l
  induction l with
  | nil =>
    intro w z hwz _ _ _ i j h
    simp only [List.nil_append, List.zip_cons_cons, List.zip_nil_right,
      List.mem_singleton, Prod.mk.injEq] at h
    rw [h.1, h.2]
    exact hwz
  | cons b l' ih =>
    intro w z hwz hw hz hnd i j h
    simp only [List.cons_append, List.zip_cons_cons] at h
    rcases List.mem_cons.mp h with he | ht
    · rw [Prod.mk.injEq] at he
      rw [he.1, he.2]
      intro hab
      exact hw (by rw [hab]; exact List.mem_cons_self _ _)
    · refine ih b z ?_ ?_ ?_ ?_ ht
      · intro hbz
        exact hz (by rw [← hbz]; exact List.mem_cons_self _ _)
      · exact (List.nodup_cons.mp hnd).1
      · intro hzl
        exact hz (List.mem_cons_of_mem _ hzl)
      · exact (List.nodup_cons.mp hnd).2

lemma cycEdges_ne {p : List S} (hnd : p.Nodup) (hlen : 2 ≤ p.length)
    {i j : S} (h : (i, j) ∈ cycEdges p) : i ≠ j := by
  match p, hlen with
  | a :: b :: l, _ =>
    have h' : (i, j) ∈ (a :: b :: l).zip ((b :: l) ++ [a]) := by
      simpa [cycEdges, List.take_cons_succ] using h
    simp only [List.cons_append, List.zip_cons_cons] at h'
    rcases List.mem_cons.mp h' with he | ht
    · rw [Prod.mk.injEq] at he
      rw [he.1, he.2]
      intro hab
      exact (List.nodup_cons.mp hnd).1 (by rw [hab]; exact List.mem_cons_self _ _)
    · have hnd' := List.nodup_cons.mp hnd
      have hnd'' := List.nodup_cons.mp hnd'.2
      refine zip_rot_ne l b a ?_ hnd''.1 ?_ hnd''.2 ht
      · intro hba
        exact hnd'.1 (by rw [← hba]; exact List.mem_cons_self _ _)
      · intro hal
        exact hnd'.1 (List.mem_cons_of_mem _ hal)

lemma adj_indexOf :
    ∀ (p : List S), p.Nodup → ∀ {i j : S}, (i, j) ∈ p.zip p.tail →
      List.indexOf j p = List.indexOf i p + 1 := by
  intro p
  induction p with
  | nil => intro _ i j h; simp at h
  | cons a l ih =>
    intro hnd i j h
    cases l with
    | nil => simp at h
    | cons b l' =>
      simp only [List.tail_cons, List.zip_cons_cons] at h
      rcases List.mem_cons.mp h with he | ht
      · rw [Prod.mk.injEq] at he
        rw [he.1, he.2]
        have hab : a ≠ b := fun hab =>
          (List.nodup_cons.mp hnd).1 (by rw [hab]; exact List.mem_cons_self _ _)
        rw [List.indexOf_cons_self, List.indexOf_cons_ne _ hab,
          List.indexOf_cons_self]
      · have hadj := ih (List.nodup_cons.mp hnd).2 ht
        have hi : i ∈ b :: l' := (List.of_mem_zip ht).1
        have hj : j ∈ b :: l' := List.mem_cons_of_mem _ (List.of_mem_zip ht).2
        have hai : a ≠ i := fun hia =>
          (List.nodup_cons.mp hnd).1 (by rw [hia]; exact hi)
        have haj : a ≠ j := fun hja =>
          (List.nodup_cons.mp hnd).1 (by rw [hja]; exact hj)
        rw [List.indexOf_cons_ne _ haj, List.indexOf_cons_ne _ hai, hadj]

lemma cycEdges_wrap_mem (p : List S) (hp : p ≠ []) :
    (p.getLast hp, p.head hp) ∈ cycEdges p := by
  rw [cycEdges_eq p hp]
  simp

lemma head_not_mem_tail (p : List S) (hp : p ≠ []) (hnd : p.Nodup) :
    p.head hp ∉ p.tail := by
  obtain ⟨a, l, rfl⟩ := List.exists_cons_of_ne_nil hp
  exact (List.nodup_cons.mp hnd).1

lemma cycEdges_snd_head {p : List S} (hp : p ≠ []) (hnd : p.Nodup) {i : S}
    (h : (i, p.head hp) ∈ cycEdges p) : i = p.getLast hp := by
  rw [cycEdges_eq p hp] at h
  rcases List.mem_append.mp h with hadj | hw
  · exact absurd (List.of_mem_zip hadj).2 (head_not_mem_tail p hp hnd)
  · simp only [List.mem_singleton, Prod.mk.injEq] at hw
    exact hw.1

lemma cycEdges_mem_adj {p : List S} (hp : p ≠ []) (hnd : p.Nodup) {i j : S}
    (h : (i, j) ∈ cycEdges p) (hj : j ≠ p.head hp) : (i, j) ∈ p.zip p.tail := by
  rw [cycEdges_eq p hp] at h
  rcases List.mem_append.mp h with hadj | hw
  · exact hadj
  · simp only [List.mem_singleton, Prod.mk.injEq] at hw
    exact absurd hw.2 hj

/-! ### Degree counts of cycle indicators -/

lemma countP_cyc_in {sites c : List S} (hnds : sites.Nodup) (hndc : c.Nodup)
    (hc2 : 2 ≤ c.length) (hsub : c ⊆ sites) {k : S} (hk : k ∈ c) :
    sites.countP (fun i => decide (i ≠ k) && decide ((i, k) ∈ cycEdges c)) = 1 := by
  obtain ⟨i₀, hi₀⟩ := cycEdges_snd_exists hk
  have hi₀c : i₀ ∈ c := cycEdges_mem_fst hi₀
  have hne : i₀ ≠ k := cycEdges_ne hndc hc2 hi₀
  apply countP_eq_one_of_unique sites _ i₀ hnds (hsub hi₀c) (by simp [hne, hi₀])
  intro b _ hpb
  simp only [Bool.and_eq_true, decide_eq_true_eq] at hpb
  exact cycEdges_snd_unique hndc hpb.2 hi₀

lemma countP_cyc_in_zero (sites : List S) {c : List S} {k : S} (hk : k ∉ c) :
    sites.countP (fun i => decide (i ≠ k) && decide ((i, k) ∈ cycEdges c)) = 0 := by
  apply List.countP_eq_zero.mpr
  intro a _
  simp only [Bool.and_eq_true, decide_eq_true_eq, not_and]
  intro _ hmem
  exact absurd (cycEdges_mem_snd hmem) hk

lemma countP_cyc_out {sites c : List S} (hnds : sites.Nodup) (hndc : c.Nodup)
    (hc2 : 2 ≤ c.length) (hsub : c ⊆ sites) {k : S} (hk : k ∈ c) :
    sites.countP (fun j => decide (j ≠ k) && decide ((k, j) ∈ cycEdges c)) = 1 := by
  obtain ⟨j₀, hj₀⟩ := cycEdges_fst_exists hk
  have hj₀c : j₀ ∈ c := cycEdges_mem_snd hj₀
  have hne : j₀ ≠ k := fun h => cycEdges_ne hndc hc2 hj₀ (h ▸ rfl)
  apply countP_eq_one_of_unique sites _ j₀ hnds (hsub hj₀c) (by simp [hne, hj₀])
  intro b _ hpb
  simp only [Bool.and_eq_true, decide_eq_true_eq] at hpb
  exact cycEdges_fst_unique hndc hpb.2 hj₀

lemma countP_cyc_out_zero (sites : List S) {c : List S} {k : S} (hk : k ∉ c) :
    sites.countP (fun j => decide (j ≠ k) && decide ((k, j) ∈ cycEdges c)) = 0 := by
  apply List.countP_eq_zero.mpr
  intro a _
  simp only [Bool.and_eq_true, decide_eq_true_eq, not_and]
  intro _ hmem
  exact absurd (cycEdges_mem_fst hmem) hk

/-! ### Hamiltonian cycles are feasible for the assembled model -/

lemma feasible_of_ham {sites : List S} {org : S} {xb : S → S → Bool}
    (hnd : sites.Nodup) (h3 : 3 ≤ sites.length)
    (hham : IsHamCycle sites org xb) : FeasibleModel sites org xb := by
  obtain ⟨p, hperm, hhead, hchar⟩ := hham
  have hpnd : p.Nodup := (hperm.nodup_iff).mpr hnd
  have hplen : p.length = sites.length := hperm.length_eq
  have hp : p ≠ [] := by
    intro h
    rw [h] at hplen
    simp at hplen
    omega
  have hpsub : p ⊆ sites := fun a ha => (hperm.mem_iff).mp ha
  have hmem : ∀ a : S, a ∈ p ↔ a ∈ sites := fun a => hperm.mem_iff
  have hheadv : p.head hp = org := by
    rw [List.head?_eq_head hp] at hhead
    exact Option.some.inj hhead
  constructor
  · intro k hk
    have hkp : k ∈ p := (hmem k).mpr hk
    constructor
    · rw [degIn_eq_countP hk]
      have hc : sites.countP (fun i => decide (i ≠ k) && xb i k)
          = sites.countP (fun i => decide (i ≠ k) && decide ((i, k) ∈ cycEdges p)) := by
        apply List.countP_congr
        intro i hi
        by_cases hik : i = k
        · simp [hik]
        · simp only [Bool.and_eq_true, decide_eq_true_eq]
          constructor
          · rintro ⟨_, hx⟩
            exact ⟨hik, (hchar i hi k hk hik).mp hx⟩
          · rintro ⟨_, he⟩
            exact ⟨hik, (hchar i hi k hk hik).mpr he⟩
      rw [hc, countP_cyc_in hnd hpnd (by omega) hpsub hkp]
      simp
    · rw [degOut_eq_countP hk]
      have hc : sites.countP (fun j => decide (j ≠ k) && xb k j)
          = sites.countP (fun j => decide (j ≠ k) && decide ((k, j) ∈ cycEdges p)) := by
        apply List.countP_congr
        intro j hj
        by_cases hjk : j = k
        · simp [hjk]
        · simp only [Bool.and_eq_true, decide_eq_true_eq]
          have hkj : k ≠ j := fun h => hjk h.symm
          constructor
          · rintro ⟨_, hx⟩
            exact ⟨hjk, (hchar k hk j hj hkj).mp hx⟩
          · rintro ⟨_, he⟩
            exact ⟨hjk, (hchar k hk j hj hkj).mpr he⟩
      rw [hc, countP_cyc_out hnd hpnd (by omega) hpsub hkp]
      simp
  · refine ⟨fun s => (List.indexOf s p : ℤ), ?_, ?_⟩
    · intro i hi
      dsimp only
      have hlt : List.indexOf i p < p.length :=
        List.indexOf_lt_length.mpr ((hmem i).mpr hi)
      rw [hplen] at hlt
      omega
    · intro i hi j hj hij hio hjo _
      dsimp only
      by_cases hxb : xb i j = true
      · have hedge := (hchar i hi j hj hij).mp hxb
        have hjh : j ≠ p.head hp := by rw [hheadv]; exact hjo
        have hadj := cycEdges_mem_adj hp hpnd hedge hjh
        have hrank := adj_indexOf p hpnd hadj
        have hb : mtzBound ((sites.length : ℕ) : ℤ) xb i j = -1 := by
          simp [mtzBound, hxb]
        rw [hb, hrank]
        push_cast
        omega
      · have hb : mtzBound ((sites.length : ℕ) : ℤ) xb i j
            = (sites.length : ℤ) - 1 := by
          simp [mtzBound, hxb]
        rw [hb]
        have hlt : List.indexOf i p < p.length :=
          List.indexOf_lt_length.mpr ((hmem i).mpr hi)
        rw [hplen] at hlt
        omega

/-! ### Orbits of the successor function -/

lemma cycEdges_orbit (o : ℕ → S) (m : ℕ) (hm : 0 < m) (hwrap : o m = o 0) :
    ∀ {i j : S}, (i, j) ∈ cycEdges ((List.range m).map o) ↔
      ∃ t, t < m ∧ i = o t ∧ j = o (t + 1) := by
  obtain ⟨m', rfl⟩ : ∃ m', m = m' + 1 := ⟨m - 1, by omega⟩
  intro i j
  have hsplit : (List.range (m' + 1)).map o = (List.range m').map o ++ [o m'] := by
    rw [List.range_succ, List.map_append]
    rfl
  have htail : ((List.range (m' + 1)).map o).tail
      = (List.range m').map (fun t => o (t + 1)) := by
    rw [List.range_succ_eq_map]
    simp [List.map_map, Function.comp]
  have hadj : ((List.range (m' + 1)).map o).zip (((List.range (m' + 1)).map o).tail)
      = (List.range m').map (fun t => (o t, o (t + 1))) := by
    rw [htail]
    conv_lhs => rw [hsplit]
    rw [zip_left_trunc _ _ _ (by simp), List.zip_map']
  have hne : (List.range (m' + 1)).map o ≠ [] := by simp
  have hlast : ((List.range (m' + 1)).map o).getLast hne = o m' := by
    have h1 : ((List.range (m' + 1)).map o).getLast? = some (o m') := by
      rw [hsplit]
      exact List.getLast?_concat _
    have h2 : ((List.range (m' + 1)).map o).getLast? =
        some (((List.range (m' + 1)).map o).getLast hne) :=
      List.getLast?_eq_getLast _ hne
    rw [h1] at h2
    exact (Option.some.inj h2).symm
  have hhead : ((List.range (m' + 1)).map o).head hne = o 0 := by
    have h1 : ((List.range (m' + 1)).map o).head? = some (o 0) := by
      rw [List.range_succ_eq_map]
      simp
    rw [List.head?_eq_head hne] at h1
    exact Option.some.inj h1
  rw [cycEdges_eq _ hne]
  simp only [List.mem_append, List.mem_singleton, hadj, hlast, hhead,
    List.mem_map, List.mem_range, Prod.mk.injEq]
  constructor
  · rintro (⟨t, ht, hpair⟩ | ⟨h1, h2⟩)
    · exact ⟨t, by omega, hpair.1.symm, hpair.2.symm⟩
    · refine ⟨m', by omega, h1, ?_⟩
      rw [h2]
      exact hwrap.symm
  · rintro ⟨t, ht, rfl, rfl⟩
    by_cases htm : t < m'
    · left
      exact ⟨t, htm, rfl, rfl⟩
    · right
      have hteq : t = m' := by omega
      subst hteq
      exact ⟨rfl, hwrap⟩

lemma iterate_mem {sites : List S} (f : S → S)
    (hmaps : ∀ x ∈ sites, f x ∈ sites) :
    ∀ (t : ℕ) (x : S), x ∈ sites → f^[t] x ∈ sites := by
  intro t
  induction t with
  | zero => intro x hx; simpa using hx
  | succ n ih =>
    intro x hx
    rw [Function.iterate_succ_apply]
    exact ih _ (hmaps x hx)

lemma iterate_inj {sites : List S} (f : S → S)
    (hmaps : ∀ x ∈ sites, f x ∈ sites)
    (hinj : ∀ x ∈ sites, ∀ y ∈ sites, f x = f y → x = y) :
    ∀ (t : ℕ) (x y : S), x ∈ sites → y ∈ sites → f^[t] x = f^[t] y → x = y := by
  intro t
  induction t with
  | zero => intro x y _ _ h; simpa using h
  | succ n ih =>
    intro x y hx hy h
    rw [Function.iterate_succ_apply, Function.iterate_succ_apply] at h
    exact hinj x hx y hy (ih _ _ (hmaps x hx) (hmaps y hy) h)

lemma iterate_period_mul {f : S → S} {x : S} {m : ℕ} (h : f^[m] x = x) :
    ∀ k, f^[k * m] x = x := by
  intro k
  induction k with
  | zero => simp
  | succ n ih =>
    have hsum : (n + 1) * m = m + n * m := by ring
    rw [hsum, Function.iterate_add_apply, ih, h]

lemma exists_period {sites : List S} (hnd : sites.Nodup) (f : S → S)
    (hmaps : ∀ x ∈ sites, f x ∈ sites)
    (hinj : ∀ x ∈ sites, ∀ y ∈ sites, f x = f y → x = y)
    {v : S} (hv : v ∈ sites) :
    ∃ m, 0 < m ∧ m ≤ sites.length ∧ f^[m] v = v := by
  have hcol : ∃ a b, a < b ∧ b ≤ sites.length ∧ f^[a] v = f^[b] v := by
    by_contra hno
    push_neg at hno
    have hmapnd : ((List.range (sites.length + 1)).map (fun t => f^[t] v)).Nodup := by
      refine List.Nodup.map_on ?_ (List.nodup_range _)
      intro x hx y hy hxy
      rw [List.mem_range] at hx hy
      rcases lt_trichotomy x y with h | h | h
      · exact absurd hxy (hno x y h (by omega))
      · exact h
      · exact absurd hxy.symm (hno y x h (by omega))
    have hsub : ((List.range (sites.length + 1)).map (fun t => f^[t] v)) ⊆ sites := by
      intro a ha
      rw [List.mem_map] at ha
      obtain ⟨t, _, rfl⟩ := ha
      exact iterate_mem f hmaps t v hv
    have hle := (hmapnd.subperm hsub).length_le
    simp at hle
  obtain ⟨a, b, hab, hbN, heq⟩ := hcol
  refine ⟨b - a, by omega, by omega, ?_⟩
  have h1 : f^[a] (f^[b - a] v) = f^[a] v := by
    rw [← Function.iterate_add_apply]
    have hsum : a + (b - a) = b := by omega
    rw [hsum, ← heq]
  exact iterate_inj f hmaps hinj a _ _ (iterate_mem f hmaps _ _ hv) hv h1

/-! ### Feasible solutions are Hamiltonian cycles -/

lemma nextS_spec {sites : List S} {xb : S → S → Bool} (hnd : sites.Nodup)
    {k : S} (hk : k ∈ sites)
    (hdeg : degOut sites (allPairs sites) xb k = 1) :
    nextS sites xb k ∈ sites ∧ nextS sites xb k ≠ k ∧
      xb k (nextS sites xb k) = true ∧
      ∀ j ∈ sites, j ≠ k → xb k j = true → j = nextS sites xb k := by
  rw [degOut_eq_countP hk] at hdeg
  have hc : sites.countP (fun i => decide (i ≠ k) && xb k i) = 1 := by
    exact_mod_cast hdeg
  obtain ⟨a, ha, hpa, huniq⟩ := exists_of_countP_eq_one _ _ hc
  have hfind : sites.find? (fun j => decide (j ≠ k) && xb k j) = some a :=
    find?_eq_some_of_unique _ _ _ ha hpa huniq
  have hn : nextS sites xb k = a := by
    rw [nextS, hfind]
    rfl
  simp only [Bool.and_eq_true, decide_eq_true_eq] at hpa
  rw [hn]
  refine ⟨ha, hpa.1, hpa.2, ?_⟩
  intro j hj hjk hxj
  exact huniq j hj (by simp [hjk, hxj])

lemma nextS_inj {sites : List S} {xb : S → S → Bool} (hnd : sites.Nodup)
    (hdeg : DegreeSat sites (allPairs sites) xb)
    {a b : S} (ha : a ∈ sites) (hb : b ∈ sites)
    (h : nextS sites xb a = nextS sites xb b) : a = b := by
  obtain ⟨hca, hna, hxa, _⟩ := nextS_spec hnd ha (hdeg a ha).2
  obtain ⟨hcb, hnb, hxb', _⟩ := nextS_spec hnd hb (hdeg b hb).2
  have hxbc : xb b (nextS sites xb a) = true := by
    rw [h]
    exact hxb'
  have hnbc : nextS sites xb a ≠ b := by
    rw [h]
    exact hnb
  have hdegin := (hdeg _ hca).1
  rw [degIn_eq_countP hca] at hdegin
  have hcnt : sites.countP
      (fun i => decide (i ≠ nextS sites xb a) && xb i (nextS sites xb a)) = 1 := by
    exact_mod_cast hdegin
  obtain ⟨i₀, hi₀, hp₀, huniq⟩ := exists_of_countP_eq_one _ _ hcnt
  have h1 : a = i₀ := huniq a ha (by simp [Ne.symm hna, hxa])
  have h2 : b = i₀ := huniq b hb (by simp [Ne.symm hnbc, hxbc])
  rw [h1, h2]

lemma ham_of_feasible {sites : List S} {org : S} {xb : S → S → Bool}
    (hnd : sites.Nodup) (horg : org ∈ sites)
    (hfeas : FeasibleModel sites org xb) : IsHamCycle sites org xb := by
  obtain ⟨hdeg, u, hub, hmtz⟩ := hfeas
  set f := nextS sites xb with hf
  have hspec : ∀ k ∈ sites, f k ∈ sites ∧ f k ≠ k ∧ xb k (f k) = true ∧
      ∀ j ∈ sites, j ≠ k → xb k j = true → j = f k :=
    fun k hk => nextS_spec hnd hk (hdeg k hk).2
  have hmaps : ∀ x ∈ sites, f x ∈ sites := fun x hx => (hspec x hx).1
  have hinj : ∀ x ∈ sites, ∀ y ∈ sites, f x = f y → x = y :=
    fun x hx y hy h => nextS_inj hnd hdeg hx hy h
  obtain ⟨m, hm0, hmN, hmp⟩ := exists_period hnd f hmaps hinj horg
  have hPex : ∃ n, 0 < n ∧ f^[n] org = org := ⟨m, hm0, hmp⟩
  set m₀ := Nat.find hPex with hm₀def
  have hm₀ := Nat.find_spec hPex
  have hm₀N : m₀ ≤ sites.length := le_trans (Nat.find_min' hPex ⟨hm0, hmp⟩) hmN
  set p := (List.range m₀).map (fun t => f^[t] org) with hpdef
  have hporbmem : ∀ t, f^[t] org ∈ sites := fun t => iterate_mem f hmaps t org horg
  have hcancel : ∀ a b : ℕ, a ≤ b → f^[a] org = f^[b] org →
      f^[b - a] org = org := by
    intro a b hab h
    apply iterate_inj f hmaps hinj a _ _ (hporbmem _) horg
    rw [← Function.iterate_add_apply]
    have hsum : a + (b - a) = b := by omega
    rw [hsum]
    exact h.symm
  have hpnd : p.Nodup := by
    refine List.Nodup.map_on ?_ (List.nodup_range _)
    intro x hx y hy hxy
    rw [List.mem_range] at hx hy
    rcases lt_trichotomy x y with h | h | h
    · exfalso
      have hper := hcancel x y (le_of_lt h) hxy
      exact Nat.find_min hPex (show y - x < m₀ by omega) ⟨by omega, hper⟩
    · exact h
    · exfalso
      have hper := hcancel y x (le_of_lt h) hxy.symm
      exact Nat.find_min hPex (show x - y < m₀ by omega) ⟨by omega, hper⟩
  have hpsub : p ⊆ sites := by
    intro a ha
    rw [hpdef, List.mem_map] at ha
    obtain ⟨t, _, rfl⟩ := ha
    exact hporbmem t
  have horbmod : ∀ s : ℕ, f^[s] org = f^[s % m₀] org := by
    intro s
    conv_lhs => rw [← Nat.div_add_mod s m₀]
    rw [Nat.add_comm, Function.iterate_add_apply]
    congr 1
    rw [Nat.mul_comm]
    exact iterate_period_mul hm₀.2 _
  have hcover : ∀ v ∈ sites, v ∈ p := by
    intro v hv
    by_contra hvp
    obtain ⟨q, hq0, _, hqp⟩ := exists_period hnd f hmaps hinj hv
    have hnotorg : ∀ t : ℕ, f^[t] v ≠ org := by
      intro t horgt
      have hmul : t + 1 ≤ (t + 1) * q := Nat.le_mul_of_pos_right _ hq0
      have hper : f^[(t + 1) * q] v = v := iterate_period_mul hqp (t + 1)
      have hsum : ((t + 1) * q - t) + t = (t + 1) * q := by omega
      have hvorb : f^[(t + 1) * q - t] org = v := by
        rw [← horgt, ← Function.iterate_add_apply, hsum, hper]
      have hvp' : v ∈ p := by
        rw [hpdef, List.mem_map]
        refine ⟨((t + 1) * q - t) % m₀, ?_, ?_⟩
        · rw [List.mem_range]
          exact Nat.mod_lt _ hm₀.1
        · rw [← horbmod]
          exact hvorb
      exact hvp hvp'
    have hstep : ∀ t : ℕ, u (f^[t] v) + 1 ≤ u (f^[t + 1] v) := by
      intro t
      have hit : f^[t] v ∈ sites := iterate_mem f hmaps t v hv
      have hsp := hspec _ hit
      have h1 : f^[t + 1] v = f (f^[t] v) := Function.iterate_succ_apply' f t v
      have hjmem : f^[t + 1] v ∈ sites := by
        rw [h1]
        exact hsp.1
      have hij : f^[t] v ≠ f^[t + 1] v := by
        rw [h1]
        exact fun hh => hsp.2.1 hh.symm
      have hcon := hmtz (f^[t] v) hit (f^[t + 1] v) hjmem hij
        (hnotorg t) (hnotorg (t + 1))
        (mem_allPairs.mpr ⟨hit, hjmem, hij⟩)
      have hxtrue : xb (f^[t] v) (f^[t + 1] v) = true := by
        rw [h1]
        exact hsp.2.2.1
      rw [mtzBound] at hcon
      simp only [hxtrue, if_true] at hcon
      have hcon' : u (f^[t] v) - u (f^[t + 1] v) ≤ -1 := by
        have hz : ((sites.length : ℕ) : ℤ) * (1 - 1) - 1 = -1 := by ring
        rw [hz] at hcon
        exact hcon
      omega
    have hchain : ∀ k : ℕ, u v + (k : ℤ) ≤ u (f^[k] v) := by
      intro k
      induction k with
      | zero => simp
      | succ n ih =>
        have h1 := hstep n
        push_cast
        push_cast at ih
        omega
    have hq := hchain q
    rw [hqp] at hq
    omega
  have hplen : p.length = m₀ := by
    rw [hpdef]
    simp
  have hNlep : sites.length ≤ m₀ := by
    have hle := (hnd.subperm hcover).length_le
    rw [hplen] at hle
    exact hle
  have hperm : p.Perm sites := (hpnd.subperm hpsub).antisymm (hnd.subperm hcover)
  have hphead : p.head? = some org := by
    have hm' : m₀ = (m₀ - 1) + 1 := by
      have := hm₀.1
      omega
    rw [hpdef, hm', List.range_succ_eq_map]
    simp
  have hedgechar : ∀ {i j : S}, (i, j) ∈ cycEdges p ↔
      ∃ t, t < m₀ ∧ i = f^[t] org ∧ j = f^[t + 1] org :=
    cycEdges_orbit _ _ hm₀.1 (by simpa using hm₀.2)
  refine ⟨p, hperm, hphead, ?_⟩
  intro i hi j hj hij
  constructor
  · intro hx
    have hj' : j = f i := (hspec i hi).2.2.2 j hj (fun h => hij h.symm) hx
    have hip : i ∈ p := hcover i hi
    rw [hpdef, List.mem_map] at hip
    obtain ⟨t, htm, hit⟩ := hip
    rw [List.mem_range] at htm
    rw [hedgechar]
    refine ⟨t, htm, hit.symm, ?_⟩
    rw [Function.iterate_succ_apply', hit, ← hj']
  · intro hedge
    rw [hedgechar] at hedge
    obtain ⟨t, htm, rfl, rfl⟩ := hedge
    rw [Function.iterate_succ_apply']
    exact (hspec _ (hporbmem t)).2.2.1

/-! ### Disjoint sub-cycles: degree-feasibility and MTZ exclusion -/

lemma degreeSat_two_cycles {sites c₁ c₂ : List S} (hnd : sites.Nodup)
    (hsplit : c₁ ++ c₂ = sites) (h1 : 2 ≤ c₁.length) (h2 : 2 ≤ c₂.length) :
    DegreeSat sites (allPairs sites)
      (fun i j => decide ((i, j) ∈ cycEdges c₁) || decide ((i, j) ∈ cycEdges c₂)) := by
  have hnd12 : (c₁ ++ c₂).Nodup := by
    rw [hsplit]
    exact hnd
  rw [List.nodup_append] at hnd12
  obtain ⟨hnd1, hnd2, hdisj⟩ := hnd12
  have hsub1 : c₁ ⊆ sites := by
    rw [← hsplit]
    exact List.subset_append_left _ _
  have hsub2 : c₂ ⊆ sites := by
    rw [← hsplit]
    exact List.subset_append_right _ _
  intro k hk
  have hk' : k ∈ c₁ ∨ k ∈ c₂ := by
    rw [← hsplit] at hk
    exact List.mem_append.mp hk
  constructor
  · rw [degIn_eq_countP hk]
    rcases hk' with hk1 | hk2
    · have hcongr : sites.countP (fun i => decide (i ≠ k) &&
          (decide ((i, k) ∈ cycEdges c₁) || decide ((i, k) ∈ cycEdges c₂)))
          = sites.countP (fun i => decide (i ≠ k) && decide ((i, k) ∈ cycEdges c₁)) := by
        apply List.countP_congr
        intro i _
        simp only [Bool.and_eq_true, Bool.or_eq_true, decide_eq_true_eq]
        constructor
        · rintro ⟨hik, he₁ | he₂⟩
          · exact ⟨hik, he₁⟩
          · exact absurd (cycEdges_mem_snd he₂) (fun hc => hdisj hk1 hc)
        · rintro ⟨hik, he⟩
          exact ⟨hik, Or.inl he⟩
      rw [hcongr, countP_cyc_in hnd hnd1 h1 hsub1 hk1]
      simp
    · have hcongr : sites.countP (fun i => decide (i ≠ k) &&
          (decide ((i, k) ∈ cycEdges c₁) || decide ((i, k) ∈ cycEdges c₂)))
          = sites.countP (fun i => decide (i ≠ k) && decide ((i, k) ∈ cycEdges c₂)) := by
        apply List.countP_congr
        intro i _
        simp only [Bool.and_eq_true, Bool.or_eq_true, decide_eq_true_eq]
        constructor
        · rintro ⟨hik, he₁ | he₂⟩
          · exact absurd hk2 (hdisj (cycEdges_mem_snd he₁))
          · exact ⟨hik, he₂⟩
        · rintro ⟨hik, he⟩
          exact ⟨hik, Or.inr he⟩
      rw [hcongr, countP_cyc_in hnd hnd2 h2 hsub2 hk2]
      simp
  · rw [degOut_eq_countP hk]
    rcases hk' with hk1 | hk2
    · have hcongr : sites.countP (fun j => decide (j ≠ k) &&
          (decide ((k, j) ∈ cycEdges c₁) || decide ((k, j) ∈ cycEdges c₂)))
          = sites.countP (fun j => decide (j ≠ k) && decide ((k, j) ∈ cycEdges c₁)) := by
        apply List.countP_congr
        intro j _
        simp only [Bool.and_eq_true, Bool.or_eq_true, decide_eq_true_eq]
        constructor
        · rintro ⟨hjk, he₁ | he₂⟩
          · exact ⟨hjk, he₁⟩
          · exact absurd (cycEdges_mem_fst he₂) (fun hc => hdisj hk1 hc)
        · rintro ⟨hjk, he⟩
          exact ⟨hjk, Or.inl he⟩
      rw [hcongr, countP_cyc_out hnd hnd1 h1 hsub1 hk1]
      simp
    · have hcongr : sites.countP (fun j => decide (j ≠ k) &&
          (decide ((k, j) ∈ cycEdges c₁) || decide ((k, j) ∈ cycEdges c₂)))
          = sites.countP (fun j => decide (j ≠ k) && decide ((k, j) ∈ cycEdges c₂)) := by
        apply List.countP_congr
        intro j _
        simp only [Bool.and_eq_true, Bool.or_eq_true, decide_eq_true_eq]
        constructor
        · rintro ⟨hjk, he₁ | he₂⟩
          · exact absurd hk2 (hdisj (cycEdges_mem_fst he₁))
          · exact ⟨hjk, he₂⟩
        · rintro ⟨hjk, he⟩
          exact ⟨hjk, Or.inr he⟩
      rw [hcongr, countP_cyc_out hnd hnd2 h2 hsub2 hk2]
      simp

lemma degree_subtour_exists {sites : List S} (hnd : sites.Nodup)
    (h4 : 4 ≤ sites.length) :
    ∃ xb : S → S → Bool, DegreeOnly sites xb ∧ ContainsDisjointSubcycles sites xb := by
  have hlen1 : (sites.take 2).length = 2 := by
    rw [List.length_take]
    omega
  have hlen2 : 2 ≤ (sites.drop 2).length := by
    rw [List.length_drop]
    omega
  have hnd12 : (sites.take 2 ++ sites.drop 2).Nodup := by
    rw [List.take_append_drop]
    exact hnd
  rw [List.nodup_append] at hnd12
  obtain ⟨hnd1, hnd2, hdisj⟩ := hnd12
  refine ⟨fun i j => decide ((i, j) ∈ cycEdges (sites.take 2)) ||
    decide ((i, j) ∈ cycEdges (sites.drop 2)), ?_, ?_⟩
  · exact degreeSat_two_cycles hnd (List.take_append_drop 2 sites) (by omega) hlen2
  · refine ⟨sites.take 2, sites.drop 2, ?_, ?_, ?_⟩
    · exact ⟨by omega, hnd1, List.take_subset _ _, fun e he => by simp [he]⟩
    · exact ⟨hlen2, hnd2, List.drop_subset _ _, fun e he => by simp [he]⟩
    · exact fun s hs hs' => hdisj hs hs'

lemma no_disjoint_subcycles_of_small {sites : List S} {xb : S → S → Bool}
    (hlen : sites.length < 4) : ¬ ContainsDisjointSubcycles sites xb := by
  rintro ⟨c₁, c₂, ⟨h1len, h1nd, h1sub, _⟩, ⟨h2len, h2nd, h2sub, _⟩, hdisj⟩
  have hnd12 : (c₁ ++ c₂).Nodup := by
    rw [List.nodup_append]
    exact ⟨h1nd, h2nd, fun a ha hb => hdisj a ha hb⟩
  have hsub : (c₁ ++ c₂) ⊆ sites := by
    intro a ha
    rcases List.mem_append.mp ha with h | h
    · exact h1sub h
    · exact h2sub h
  have hle := (hnd12.subperm hsub).length_le
  rw [List.length_append] at hle
  omega

lemma chain_increase (u : S → ℤ) :
    ∀ (c : List S) (hc : c ≠ []),
      (∀ i j : S, (i, j) ∈ c.zip c.tail → u i + 1 ≤ u j) →
      u (c.head hc) + (c.length : ℤ) - 1 ≤ u (c.getLast hc) := by
  intro c
  induction c with
  | nil => intro hc; exact absurd rfl hc
  | cons a l ih =>
    intro hc hstep
    cases l with
    | nil => simp
    | cons b l' =>
      have h1 : u a + 1 ≤ u b :=
        hstep a b (by simp [List.zip_cons_cons])
      have h2 := ih (by simp) (fun i j hij =>
        hstep i j (by
          simp only [List.tail_cons, List.zip_cons_cons] at hij ⊢
          exact List.mem_cons_of_mem _ hij))
      rw [List.getLast_cons (by simp : (b :: l') ≠ [])]
      simp only [List.head_cons] at h2 ⊢
      rw [List.length_cons]
      push_cast
      push_cast at h2
      omega

lemma mtz_excludes_orgless_cycle {sites : List S} {org : S} {xb : S → S → Bool}
    {u : S → ℤ} (hmtz : MTZSat sites (allPairs sites) org xb u)
    {c : List S} (hcyc : IsCycleIn sites xb c) (horgc : org ∉ c) : False := by
  obtain ⟨hlen, hndc, hsub, hsel⟩ := hcyc
  have hc : c ≠ [] := by
    intro h
    rw [h] at hlen
    simp at hlen
  have hstep : ∀ i j : S, (i, j) ∈ c.zip c.tail → u i + 1 ≤ u j := by
    intro i j hij
    have hije : (i, j) ∈ cycEdges c := by
      rw [cycEdges_eq c hc]
      exact List.mem_append_left _ hij
    have hi : i ∈ c := cycEdges_mem_fst hije
    have hj : j ∈ c := cycEdges_mem_snd hije
    have hne : i ≠ j := cycEdges_ne hndc hlen hije
    have hx : xb i j = true := hsel _ hije
    have hcon := hmtz i (hsub hi) j (hsub hj) hne
      (fun h => horgc (h ▸ hi)) (fun h => horgc (h ▸ hj))
      (mem_allPairs.mpr ⟨hsub hi, hsub hj, hne⟩)
    rw [mtzBound] at hcon
    simp only [hx, if_true] at hcon
    have hz : ((sites.length : ℕ) : ℤ) * (1 - 1) - 1 = -1 := by ring
    rw [hz] at hcon
    omega
  have hchain := chain_increase u c hc hstep
  have hwrap : (c.getLast hc, c.head hc) ∈ cycEdges c := cycEdges_wrap_mem c hc
  have hlastne : c.getLast hc ≠ c.head hc := cycEdges_ne hndc hlen hwrap
  have hlastmem : c.getLast hc ∈ c := List.getLast_mem hc
  have hheadmem : c.head hc ∈ c := List.head_mem hc
  have hx : xb (c.getLast hc) (c.head hc) = true := hsel _ hwrap
  have hcon := hmtz _ (hsub hlastmem) _ (hsub hheadmem) hlastne
    (fun h => horgc (h ▸ hlastmem)) (fun h => horgc (h ▸ hheadmem))
    (mem_allPairs.mpr ⟨hsub hlastmem, hsub hheadmem, hlastne⟩)
  rw [mtzBound] at hcon
  simp only [hx, if_true] at hcon
  have hz : ((sites.length : ℕ) : ℤ) * (1 - 1) - 1 = -1 := by ring
  rw [hz] at hcon
  omega

lemma subcycles_not_feasible {sites : List S} {org : S} {xb : S → S → Bool}
    (hsub : ContainsDisjointSubcycles sites xb) : ¬ FeasibleModel sites org xb := by
  rintro ⟨_, u, _, hmtz⟩
  obtain ⟨c₁, c₂, hc₁, hc₂, hdisj⟩ := hsub
  by_cases horg : org ∈ c₁
  · exact mtz_excludes_orgless_cycle hmtz hc₂ (fun h => hdisj org horg h)
  · exact mtz_excludes_orgless_cycle hmtz hc₁ horg

/-! ### Claim C1 -/

/-- C1: over any duplicate-free site list with designated origin and N ≥ 3,
(a) the 0/1 edge assignments feasible for the assembled model (degree
constraints plus MTZ constraints with some in-bounds ordering `u`) are
exactly the single Hamiltonian cycles through all sites starting and ending
at the origin; (b) for N ≥ 4 the degree constraints alone admit an
assignment containing disjoint sub-cycles (at N = 3 they do not, so the
claim's "for every N ≥ 3" is amended to N ≥ 4); (c) the MTZ constraints
exclude every assignment containing disjoint sub-cycles, while (by (a))
every Hamiltonian cycle through the origin with its visitation ranks
satisfies every generated constraint. -/
theorem C1_feasible_iff_single_ham_cycle (sites : List S) (org : S)
    (hnd : sites.Nodup) (horg : org ∈ sites) (h3 : 3 ≤ sites.length) :
    (∀ xb : S → S → Bool, FeasibleModel sites org xb ↔ IsHamCycle sites org xb) ∧
    (4 ≤ sites.length →
      ∃ xb : S → S → Bool, DegreeOnly sites xb ∧
        ContainsDisjointSubcycles sites xb) ∧
    (∀ xb : S → S → Bool, ContainsDisjointSubcycles sites xb →
      ¬ FeasibleModel sites org xb) := by
  refine ⟨?_, ?_, ?_⟩
  · intro xb
    exact ⟨ham_of_feasible hnd horg, feasible_of_ham hnd h3⟩
  · intro h4
    exact degree_subtour_exists hnd h4
  · intro xb hsub
    exact subcycles_not_feasible hsub

/-- C1 counterexample: at the concrete minimum-size input N = 3
(sites `{0,1,2}` over `Fin 3` with origin `0`), no 0/1 assignment
satisfying the degree constraints alone contains disjoint sub-cycles, so
the claim's "for every N ≥ 3 the degree constraints alone admit assignments
containing disjoint sub-cycles" is false as stated. -/
theorem C1_no_disjoint_subcycles_at_three_sites :
    ¬ ∃ xb : Fin 3 → Fin 3 → Bool,
      DegreeOnly ([0, 1, 2] : List (Fin 3)) xb ∧
        ContainsDisjointSubcycles ([0, 1, 2] : List (Fin 3)) xb := by
  rintro ⟨xb, _, hsub⟩
  exact no_disjoint_subcycles_of_small (by simp) hsub

/-- C1 witness: the characterization instantiated at the concrete four-site
input with origin `"org"`. -/
theorem C1_feasible_iff_single_ham_cycle_witness :
    (["org", "A", "B", "C"] : List String).Nodup ∧
    "org" ∈ (["org", "A", "B", "C"] : List String) ∧
    3 ≤ (["org", "A", "B", "C"] : List String).length ∧
    ((∀ xb : String → String → Bool,
        FeasibleModel ["org", "A", "B", "C"] "org" xb ↔
          IsHamCycle ["org", "A", "B", "C"] "org" xb) ∧
      (4 ≤ (["org", "A", "B", "C"] : List String).length →
        ∃ xb : String → String → Bool,
          DegreeOnly ["org", "A", "B", "C"] xb ∧
            ContainsDisjointSubcycles ["org", "A", "B", "C"] xb) ∧
      (∀ xb : String → String → Bool,
        ContainsDisjointSubcycles ["org", "A", "B", "C"] xb →
          ¬ FeasibleModel ["org", "A", "B", "C"] "org" xb)) :=
  ⟨by decide, by decide, by decide,
    C1_feasible_iff_single_ham_cycle _ _ (by decide) (by decide) (by decide)⟩

/-! ### Syntactic shape of the generated constraint lists -/

lemma mem_mtzPairs {sites : List S} {dom : List (S × S)} {org : S} {i j : S} :
    (i, j) ∈ mtzPairs sites dom org ↔
      i ∈ sites ∧ j ∈ sites ∧ i ≠ j ∧ i ≠ org ∧ j ≠ org ∧ (i, j) ∈ dom := by
  simp only [mtzPairs, List.mem_flatMap, List.mem_map, List.mem_filter,
    Bool.and_eq_true, decide_eq_true_eq, Prod.mk.injEq]
  constructor
  · rintro ⟨a, ha, b, ⟨hb, ⟨⟨⟨hab, hao⟩, hbo⟩, hdom⟩⟩, rfl, rfl⟩
    exact ⟨ha, hb, hab, hao, hbo, hdom⟩
  · rintro ⟨hi, hj, hij, hio, hjo, hdom⟩
    exact ⟨i, hi, j, ⟨hj, ⟨⟨⟨hij, hio⟩, hjo⟩, hdom⟩⟩, rfl, rfl⟩

lemma allPairs_nodup {sites : List S} (hnd : sites.Nodup) :
    (allPairs sites).Nodup := by
  rw [allPairs, List.nodup_flatMap]
  constructor
  · intro a _
    refine List.Nodup.map ?_ (hnd.filter _)
    intro x y hxy
    exact ((Prod.mk.injEq _ _ _ _).mp hxy).2
  · refine hnd.imp ?_
    intro a b hab pr hpa hpb
    rw [List.mem_map] at hpa hpb
    obtain ⟨x, _, rfl⟩ := hpa
    obtain ⟨y, _, hy⟩ := hpb
    exact hab (((Prod.mk.injEq _ _ _ _).mp hy).1.symm)

lemma mtzPairs_nodup {sites : List S} (dom : List (S × S)) (org : S)
    (hnd : sites.Nodup) : (mtzPairs sites dom org).Nodup := by
  rw [mtzPairs, List.nodup_flatMap]
  constructor
  · intro a _
    refine List.Nodup.map ?_ (hnd.filter _)
    intro x y hxy
    exact ((Prod.mk.injEq _ _ _ _).mp hxy).2
  · refine hnd.imp ?_
    intro a b hab pr hpa hpb
    rw [List.mem_map] at hpa hpb
    obtain ⟨x, _, rfl⟩ := hpa
    obtain ⟨y, _, hy⟩ := hpb
    exact hab (((Prod.mk.injEq _ _ _ _).mp hy).1.symm)

lemma mem_degCons {sites : List S} {dom : List (S × S)} {c : DegCon S} :
    c ∈ degCons sites dom ↔ ∃ k ∈ sites,
      c = DegCon.inb k (inTerms sites dom k) ∨
        c = DegCon.outb k (outTerms sites dom k) := by
  simp only [degCons, List.mem_flatMap, List.mem_cons, List.mem_singleton]
  constructor
  · rintro ⟨k, hk, h | h | h⟩
    · exact ⟨k, hk, Or.inl h⟩
    · exact ⟨k, hk, Or.inr h⟩
    · cases h
  · rintro ⟨k, hk, h | h⟩
    · exact ⟨k, hk, Or.inl h⟩
    · exact ⟨k, hk, Or.inr (Or.inl h)⟩

lemma degCons_nodup {sites : List S} (dom : List (S × S)) (hnd : sites.Nodup) :
    (degCons sites dom).Nodup := by
  rw [degCons, List.nodup_flatMap]
  constructor
  · intro k _
    simp
  · refine hnd.imp ?_
    intro a b hab c hca hcb
    simp only [List.mem_cons, List.mem_singleton] at hca hcb
    rcases hca with h | h | h
    · rcases hcb with h' | h' | h'
      · rw [h] at h'
        injection h' with h1 _
        exact hab h1
      · rw [h] at h'
        exact DegCon.noConfusion h'
      · cases h'
    · rcases hcb with h' | h' | h'
      · rw [h] at h'
        exact DegCon.noConfusion h'
      · rw [h] at h'
        injection h' with h1 _
        exact hab h1
      · cases h'
    · cases h

lemma inTerms_complete {sites : List S} {k : S} (hk : k ∈ sites) :
    inTerms sites (allPairs sites) k = sites.filter (fun i => decide (i ≠ k)) := by
  apply List.filter_congr
  intro i hi
  by_cases hik : i = k
  · simp [hik, mem_allPairs]
  · simp [hik, mem_allPairs, hi, hk]

lemma outTerms_complete {sites : List S} {k : S} (hk : k ∈ sites) :
    outTerms sites (allPairs sites) k = sites.filter (fun i => decide (i ≠ k)) := by
  apply List.filter_congr
  intro i hi
  by_cases hik : i = k
  · simp [hik, mem_allPairs]
  · have hki : k ≠ i := fun h => hik h.symm
    simp [hik, mem_allPairs, hi, hk, hki]

lemma degreeSat_iff_all_cons {sites : List S} {dom : List (S × S)}
    (xb : S → S → Bool) :
    DegreeSat sites dom xb ↔ ∀ c ∈ degCons sites dom, evalDegCon xb c := by
  constructor
  · intro h c hc
    rw [mem_degCons] at hc
    obtain ⟨k, hk, hcase | hcase⟩ := hc <;> subst hcase
    · exact (h k hk).1
    · exact (h k hk).2
  · intro h k hk
    exact ⟨h _ (mem_degCons.mpr ⟨k, hk, Or.inl rfl⟩),
      h _ (mem_degCons.mpr ⟨k, hk, Or.inr rfl⟩)⟩

/-! ### Claims C2 and C7 -/

/-- C2: with a complete distance matrix the subtour-elimination loop adds,
exactly once, for every ordered pair (i, j) of distinct sites with i ≠ org
and j ≠ org, the constraint `u[i] - u[j] ≤ N*(1 - x[i,j]) - 1`; no
generated pair mentions the origin; satisfaction of the loop is exactly
satisfaction of the constraint at every generated pair; when `x[i,j] = 1`
the bound is −1 and when `x[i,j] = 0` it is N − 1, which is always
satisfiable under the declared `u` domain `[0, N-1]`. -/
theorem C2_subtour_elimination_builder (sites : List S) (org : S)
    (hnd : sites.Nodup) :
    (∀ i j : S, (i, j) ∈ mtzPairs sites (allPairs sites) org ↔
      i ∈ sites ∧ j ∈ sites ∧ i ≠ j ∧ i ≠ org ∧ j ≠ org) ∧
    (∀ pr ∈ mtzPairs sites (allPairs sites) org,
      (mtzPairs sites (allPairs sites) org).countP (fun q => decide (q = pr)) = 1) ∧
    (∀ pr ∈ mtzPairs sites (allPairs sites) org, pr.1 ≠ org ∧ pr.2 ≠ org) ∧
    (∀ (xb : S → S → Bool) (u : S → ℤ),
      MTZSat sites (allPairs sites) org xb u ↔
        ∀ pr ∈ mtzPairs sites (allPairs sites) org,
          u pr.1 - u pr.2 ≤ mtzBound (sites.length : ℤ) xb pr.1 pr.2) ∧
    (∀ (xb : S → S → Bool) (i j : S),
      (xb i j = true → mtzBound (sites.length : ℤ) xb i j = -1) ∧
      (xb i j = false →
        mtzBound (sites.length : ℤ) xb i j = (sites.length : ℤ) - 1)) ∧
    (∀ (xb : S → S → Bool) (u : S → ℤ), UBounds sites u →
      ∀ i ∈ sites, ∀ j ∈ sites, xb i j = false →
        u i - u j ≤ mtzBound (sites.length : ℤ) xb i j) := by
  refine ⟨?_, ?_, ?_, ?_, ?_, ?_⟩
  · intro i j
    rw [mem_mtzPairs]
    constructor
    · rintro ⟨h1, h2, h3, h4, h5, _⟩
      exact ⟨h1, h2, h3, h4, h5⟩
    · rintro ⟨h1, h2, h3, h4, h5⟩
      exact ⟨h1, h2, h3, h4, h5, mem_allPairs.mpr ⟨h1, h2, h3⟩⟩
  · intro pr hpr
    exact countP_eq_one_of_unique _ _ pr (mtzPairs_nodup _ _ hnd) hpr
      (by simp) (fun b _ hb => by simpa using hb)
  · intro pr hpr
    obtain ⟨i, j⟩ := pr
    have h := mem_mtzPairs.mp hpr
    exact ⟨h.2.2.2.1, h.2.2.2.2.1⟩
  · intro xb u
    constructor
    · intro h pr hpr
      obtain ⟨i, j⟩ := pr
      obtain ⟨h1, h2, h3, h4, h5, h6⟩ := mem_mtzPairs.mp hpr
      exact h i h1 j h2 h3 h4 h5 h6
    · intro h i hi j hj hij hio hjo hdom
      exact h (i, j) (mem_mtzPairs.mpr ⟨hi, hj, hij, hio, hjo, hdom⟩)
  · intro xb i j
    constructor
    · intro h
      simp [mtzBound, h]
    · intro h
      simp [mtzBound, h]
  · intro xb u hub i hi j hj hx
    have h1 := hub i hi
    have h2 := hub j hj
    have hb : mtzBound (sites.length : ℤ) xb i j = (sites.length : ℤ) - 1 := by
      simp [mtzBound, hx]
    rw [hb]
    omega

/-- C2 witness: the builder characterization at the concrete three-site
instance, projected at the pair (A, B). -/
theorem C2_subtour_elimination_builder_witness :
    (["org", "A", "B"] : List String).Nodup ∧
    (("A", "B") ∈ mtzPairs ["org", "A", "B"] (allPairs ["org", "A", "B"]) "org" ↔
      "A" ∈ (["org", "A", "B"] : List String) ∧
        "B" ∈ (["org", "A", "B"] : List String) ∧
        "A" ≠ "B" ∧ "A" ≠ "org" ∧ "B" ≠ "org") :=
  ⟨by decide, (C2_subtour_elimination_builder ["org", "A", "B"] "org"
    (by decide)).1 "A" "B"⟩

/-- C7: with a complete distance matrix the degree-constraint loop adds,
for every site k, exactly one inbound equality summing `x[i,k]` over all
i ≠ k and exactly one outbound equality summing `x[k,i]` over all i ≠ k,
2N constraints in total; satisfaction of the loop is satisfaction of every
generated constraint; and the binary edge-variable dictionary is keyed by
exactly the ordered pairs of distinct sites. -/
theorem C7_degree_constraint_builder (sites : List S) (hnd : sites.Nodup) :
    (∀ k ∈ sites,
      (degCons sites (allPairs sites)).countP
          (fun c => decide (c = DegCon.inb k
            (sites.filter (fun i => decide (i ≠ k))))) = 1 ∧
        (degCons sites (allPairs sites)).countP
          (fun c => decide (c = DegCon.outb k
            (sites.filter (fun i => decide (i ≠ k))))) = 1) ∧
    (degCons sites (allPairs sites)).length = 2 * sites.length ∧
    (∀ xb : S → S → Bool, DegreeSat sites (allPairs sites) xb ↔
      ∀ c ∈ degCons sites (allPairs sites), evalDegCon xb c) ∧
    (∀ i j : S, (i, j) ∈ allPairs sites ↔ i ∈ sites ∧ j ∈ sites ∧ i ≠ j) := by
  refine ⟨?_, ?_, ?_, ?_⟩
  · intro k hk
    constructor
    · rw [← inTerms_complete hk]
      exact countP_eq_one_of_unique _ _ _ (degCons_nodup _ hnd)
        (mem_degCons.mpr ⟨k, hk, Or.inl rfl⟩) (by simp)
        (fun b _ hb => by simpa using hb)
    · rw [← outTerms_complete hk]
      exact countP_eq_one_of_unique _ _ _ (degCons_nodup _ hnd)
        (mem_degCons.mpr ⟨k, hk, Or.inr rfl⟩) (by simp)
        (fun b _ hb => by simpa using hb)
  · have hgen : ∀ (l : List S) (f g : S → DegCon S),
        (l.flatMap (fun k => [f k, g k])).length = 2 * l.length := by
      intro l f g
      induction l with
      | nil => simp
      | cons a rest ih =>
        simp only [List.flatMap_cons, List.length_append, List.length_cons,
          List.length_nil, ih]
        omega
    exact hgen sites _ _
  · exact fun xb => degreeSat_iff_all_cons xb
  · exact fun i j => mem_allPairs

/-- C7 witness: the builder characterization at the concrete three-site
instance. -/
theorem C7_degree_constraint_builder_witness :
    (["org", "A", "B"] : List String).Nodup ∧
    (degCons ["org", "A", "B"] (allPairs ["org", "A", "B"])).length
      = 2 * (["org", "A", "B"] : List String).length :=
  ⟨by decide, (C7_degree_constraint_builder ["org", "A", "B"] (by decide)).2.1⟩

/-! ### Claims C5 and C8 -/

lemma mem_outTerms {sites : List S} {dom : List (S × S)} {k i : S} :
    i ∈ outTerms sites dom k ↔ i ∈ sites ∧ (k, i) ∈ dom := by
  simp [outTerms, List.mem_filter]

lemma mem_inTerms {sites : List S} {dom : List (S × S)} {k i : S} :
    i ∈ inTerms sites dom k ↔ i ∈ sites ∧ (i, k) ∈ dom := by
  simp [inTerms, List.mem_filter]

/-- C5 (amended): when the distance dictionary is missing the pair (a, b),
the builder raises nothing; the membership guards silently drop exactly the
terms corresponding to the missing pair — b disappears from a's outbound
sum and a from b's inbound sum, while both are present with the complete
matrix and every other site's term lists are unchanged. -/
theorem C5_missing_pair_silently_omitted (sites : List S) (a b : S)
    (hnd : sites.Nodup) (hab : (a, b) ∈ allPairs sites) :
    b ∉ outTerms sites ((allPairs sites).erase (a, b)) a ∧
    a ∉ inTerms sites ((allPairs sites).erase (a, b)) b ∧
    b ∈ outTerms sites (allPairs sites) a ∧
    a ∈ inTerms sites (allPairs sites) b ∧
    (∀ i : S, i ≠ b →
      (i ∈ outTerms sites ((allPairs sites).erase (a, b)) a ↔
        i ∈ outTerms sites (allPairs sites) a)) ∧
    (∀ i : S, i ≠ a →
      (i ∈ inTerms sites ((allPairs sites).erase (a, b)) b ↔
        i ∈ inTerms sites (allPairs sites) b)) ∧
    (∀ k : S, k ≠ a → outTerms sites ((allPairs sites).erase (a, b)) k
        = outTerms sites (allPairs sites) k) ∧
    (∀ k : S, k ≠ b → inTerms sites ((allPairs sites).erase (a, b)) k
        = inTerms sites (allPairs sites) k) := by
  have hap := allPairs_nodup hnd
  have hmember : ∀ pr : S × S,
      pr ∈ (allPairs sites).erase (a, b) ↔ pr ≠ (a, b) ∧ pr ∈ allPairs sites :=
    fun pr => hap.mem_erase_iff
  obtain ⟨ha, hb, hne⟩ := mem_allPairs.mp hab
  refine ⟨?_, ?_, ?_, ?_, ?_, ?_, ?_, ?_⟩
  · intro h
    have := ((hmember _).mp (mem_outTerms.mp h).2).1
    exact this rfl
  · intro h
    have := ((hmember _).mp (mem_inTerms.mp h).2).1
    exact this rfl
  · exact mem_outTerms.mpr ⟨hb, hab⟩
  · exact mem_inTerms.mpr ⟨ha, hab⟩
  · intro i hib
    rw [mem_outTerms, mem_outTerms]
    constructor
    · rintro ⟨h1, h2⟩
      exact ⟨h1, ((hmember _).mp h2).2⟩
    · rintro ⟨h1, h2⟩
      refine ⟨h1, (hmember _).mpr ⟨?_, h2⟩⟩
      intro hcontra
      exact hib (((Prod.mk.injEq _ _ _ _).mp hcontra).2)
  · intro i hia
    rw [mem_inTerms, mem_inTerms]
    constructor
    · rintro ⟨h1, h2⟩
      exact ⟨h1, ((hmember _).mp h2).2⟩
    · rintro ⟨h1, h2⟩
      refine ⟨h1, (hmember _).mpr ⟨?_, h2⟩⟩
      intro hcontra
      exact hia (((Prod.mk.injEq _ _ _ _).mp hcontra).1)
  · intro k hka
    apply List.filter_congr
    intro i _
    have : ((k, i) ∈ (allPairs sites).erase (a, b)) ↔ ((k, i) ∈ allPairs sites) := by
      rw [hmember]
      constructor
      · exact fun h => h.2
      · intro h
        refine ⟨?_, h⟩
        intro hcontra
        exact hka (((Prod.mk.injEq _ _ _ _).mp hcontra).1)
    simp [this]
  · intro k hkb
    apply List.filter_congr
    intro i _
    have : ((i, k) ∈ (allPairs sites).erase (a, b)) ↔ ((i, k) ∈ allPairs sites) := by
      rw [hmember]
      constructor
      · exact fun h => h.2
      · intro h
        refine ⟨?_, h⟩
        intro hcontra
        exact hkb (((Prod.mk.injEq _ _ _ _).mp hcontra).2)
    simp [this]

/-- C5 counterexample: at the concrete three-site input with the pair
(A, B) missing from the distance dictionary, model construction proceeds
(all six degree constraints are generated; no exception path exists) and
site A's outbound sum silently omits the x[A,B] term, where the claim
demands a MissingDistanceError before any solve attempt. -/
theorem C5_construction_proceeds_with_missing_pair :
    outTerms ["org", "A", "B"]
        ((allPairs ["org", "A", "B"]).erase ("A", "B")) "A" = ["org"] ∧
    outTerms ["org", "A", "B"] (allPairs ["org", "A", "B"]) "A" = ["org", "B"] ∧
    (degCons ["org", "A", "B"]
        ((allPairs ["org", "A", "B"]).erase ("A", "B"))).length = 6 := by
  refine ⟨by decide, by decide, by decide⟩

/-- C5 witness: the omission characterization instantiated at the concrete
three-site input with the pair (A, B) missing. -/
theorem C5_missing_pair_silently_omitted_witness :
    (["org", "A", "B"] : List String).Nodup ∧
    ("A", "B") ∈ allPairs ["org", "A", "B"] ∧
    "B" ∉ outTerms ["org", "A", "B"]
      ((allPairs ["org", "A", "B"]).erase ("A", "B")) "A" :=
  ⟨by decide, by decide,
    (C5_missing_pair_silently_omitted ["org", "A", "B"] "A" "B"
      (by decide) (by decide)).1⟩

lemma mtzPairs_of_org_not_mem {sites : List S} {dom : List (S × S)} {org : S}
    (horg : org ∉ sites) {i j : S} :
    (i, j) ∈ mtzPairs sites dom org ↔
      i ∈ sites ∧ j ∈ sites ∧ i ≠ j ∧ (i, j) ∈ dom := by
  rw [mem_mtzPairs]
  constructor
  · rintro ⟨h1, h2, h3, _, _, h6⟩
    exact ⟨h1, h2, h3, h6⟩
  · rintro ⟨h1, h2, h3, h4⟩
    exact ⟨h1, h2, h3, fun h => horg (h ▸ h1), fun h => horg (h ▸ h2), h4⟩

lemma two_site_feasible (a b : S) (hab : a ≠ b) :
    FeasibleModel [a, b] a (fun _ _ => true) := by
  have hba : b ≠ a := fun h => hab h.symm
  constructor
  · intro k hk
    rcases List.mem_cons.mp hk with rfl | hk'
    · constructor
      · rw [degIn_eq_countP hk]
        simp [List.countP_cons, hba]
      · rw [degOut_eq_countP hk]
        simp [List.countP_cons, hba]
    · rw [List.mem_singleton] at hk'
      subst hk'
      constructor
      · rw [degIn_eq_countP hk]
        simp [List.countP_cons, hab]
      · rw [degOut_eq_countP hk]
        simp [List.countP_cons, hab]
  · refine ⟨fun _ => 0, ?_, ?_⟩
    · intro i _
      dsimp only
      norm_num
    · intro i hi j hj hij hio hjo _
      rcases List.mem_cons.mp hi with rfl | hi'
      · exact absurd rfl hio
      · rcases List.mem_cons.mp hj with rfl | hj'
        · exact absurd rfl hjo
        · rw [List.mem_singleton] at hi' hj'
          subst hi'
          subst hj'
          exact absurd rfl hij

/-- C8 (amended): model construction performs no input validation and never
fails — no ModelConstructionError exists in the code.  For any two distinct
sites the assembled model at N = 2 < 3 is produced and is even feasible,
and when the designated origin is not among the sites the
subtour-elimination loop simply treats every site as non-origin, generating
a constraint for every ordered pair of distinct sites present in the
variable dictionary. -/
theorem C8_construction_never_fails :
    (∀ a b : S, a ≠ b → FeasibleModel [a, b] a (fun _ _ => true)) ∧
    (∀ (sites : List S) (dom : List (S × S)) (org : S), org ∉ sites →
      ∀ i j : S, ((i, j) ∈ mtzPairs sites dom org ↔
        i ∈ sites ∧ j ∈ sites ∧ i ≠ j ∧ (i, j) ∈ dom)) :=
  ⟨fun a b hab => two_site_feasible a b hab,
   fun _ _ _ horg _ _ => mtzPairs_of_org_not_mem horg⟩

/-- C8 counterexample: at the concrete two-site input (N = 2 < 3) the
notebook's construction still produces a model, and that model is feasible
(both edges selected), where the claim demands a ModelConstructionError
instead of a model. -/
theorem C8_two_site_model_feasible :
    FeasibleModel ["org", "A"] "org" (fun _ _ => true) :=
  two_site_feasible "org" "A" (by decide)

/-- C8 witness: no-validation behaviour at concrete inputs — a two-site
feasible model, and an MTZ pair generated for sites not containing the
origin label. -/
theorem C8_construction_never_fails_witness :
    ("x" ≠ "y" ∧ FeasibleModel ["x", "y"] "x" (fun _ _ => true)) ∧
    ("org" ∉ (["A", "B", "C"] : List String) ∧
      (("A", "B") ∈ mtzPairs ["A", "B", "C"] (allPairs ["A", "B", "C"]) "org" ↔
        "A" ∈ (["A", "B", "C"] : List String) ∧
          "B" ∈ (["A", "B", "C"] : List String) ∧ "A" ≠ "B" ∧
          ("A", "B") ∈ allPairs ["A", "B", "C"])) :=
  ⟨⟨by decide, (@C8_construction_never_fails String _).1 "x" "y" (by decide)⟩,
   ⟨by decide, (@C8_construction_never_fails String _).2 ["A", "B", "C"] _ "org"
      (by decide) "A" "B"⟩⟩

/-! ### Claims C3 and C4: the decode boundary -/

/-- C3 (code evaluated at the failing input): the reconstruction cell
compares solver values by exact equality `== 1`, not within a tolerance.
At value 1 − 10⁻⁷ — within the spec's 10⁻⁶ tolerance of 1 — the code's
test is false, and the loop state never changes, so the decoder makes no
progress at any fuel (the Python while-loop spins forever) instead of
selecting the edge as the claim requires. -/
theorem C3_exact_equality_not_tolerance :
    codeEdgeTest (1 - 1/10000000 : ℚ) = false ∧
    |(1 - 1/10000000 : ℚ) - 1| ≤ 1/1000000 ∧
    (∀ fuel : ℕ,
      decodeLoop (fun pr => if pr = ("org", "A") then (1 - 1/10000000 : ℚ) else 0)
        fuel "org" ["A"] = none) ∧
    codeEdgeTest (1 : ℚ) = true := by
  have hfalse : codeEdgeTest (1 - 1/10000000 : ℚ) = false := by
    rw [codeEdgeTest, decide_eq_false_iff_not]
    norm_num
  refine ⟨hfalse, ?_, ?_, by decide⟩
  · have h : (1 - 1/10000000 : ℚ) - 1 = -(1/10000000) := by norm_num
    rw [h, abs_neg, abs_of_pos (by norm_num)]
    norm_num
  · have hna : ¬ ((fun k => codeEdgeTest
        (if ((("org" : String), k) : String × String) = ("org", "A")
          then (1 - 1/10000000 : ℚ) else 0)) "A" = true) := by
      intro hcontra
      dsimp only at hcontra
      rw [if_pos rfl] at hcontra
      rw [hfalse] at hcontra
      exact Bool.false_ne_true hcontra
    have hfind : findNext
        (fun pr => if pr = ("org", "A") then (1 - 1/10000000 : ℚ) else 0)
        "org" ["A"] = none := by
      rw [findNext]
      apply List.find?_eq_none.mpr
      intro x hx
      rw [List.mem_singleton] at hx
      subst hx
      exact fun hcontra => hna hcontra
    intro fuel
    cases fuel with
    | zero => rfl
    | succ n =>
      simp only [decodeLoop]
      rw [hfind]
      rfl

/-- C3 witness: the spinning loop evaluated at a concrete fuel. -/
theorem C3_exact_equality_not_tolerance_witness :
    decodeLoop (fun pr => if pr = ("org", "A") then (1 - 1/10000000 : ℚ) else 0)
      7 "org" ["A"] = none :=
  C3_exact_equality_not_tolerance.2.2.1 7

/-- C4 (code evaluated at failing inputs): the decoder never raises a
DecodeError (none exists in the code).  With two outbound edges of value 1
from the current site it silently selects the first and returns a complete
tour, and with zero such edges the loop state never changes at any fuel —
the Python while-loop spins forever rather than surfacing an error. -/
theorem C4_no_decode_error :
    decodeTour ["org", "A", "B"]
        (fun pr => if pr = ("org", "A") ∨ pr = ("org", "B") ∨ pr = ("A", "B")
          then (1 : ℚ) else 0)
      = some ["org", "A", "B", "org"] ∧
    (∀ fuel : ℕ, decodeLoop (fun _ => (0 : ℚ)) fuel "org" ["A", "B"] = none) := by
  constructor
  · rfl
  · intro fuel
    cases fuel with
    | zero => rfl
    | succ n => rfl

/-- C4 witness: the spinning zero-edge loop evaluated at a concrete fuel. -/
theorem C4_no_decode_error_witness :
    decodeLoop (fun _ => (0 : ℚ)) 5 "org" ["A", "B"] = none :=
  C4_no_decode_error.2 5

/-! ### The decoder follows a Hamiltonian assignment -/

lemma adjacent_mem_zip_tail :
    ∀ (done rest' : List S) (cur r : S),
      (cur, r) ∈ ((done ++ cur :: r :: rest').zip
        (done ++ cur :: r :: rest').tail) := by
  intro done
  induction done with
  | nil =>
    intro rest' cur r
    show (cur, r) ∈ (cur :: r :: rest').zip (r :: rest')
    rw [List.zip_cons_cons]
    exact List.mem_cons_self _ _
  | cons d done' ih =>
    intro rest' cur r
    have hL : done' ++ cur :: r :: rest' ≠ [] := by simp
    obtain ⟨l0, L', hL'⟩ := List.exists_cons_of_ne_nil hL
    show (cur, r) ∈ (d :: (done' ++ cur :: r :: rest')).zip
      ((d :: (done' ++ cur :: r :: rest')).tail)
    rw [List.tail_cons, hL', List.zip_cons_cons]
    refine List.mem_cons_of_mem _ ?_
    have hmem := ih rest' cur r
    rw [hL'] at hmem
    simpa using hmem

lemma cycEdges_length (p : List S) : (cycEdges p).length = p.length := by
  cases p with
  | nil => rfl
  | cons a l =>
    rw [cycEdges]
    rw [List.length_zip]
    simp

lemma decodeLoop_follows_cycle (xv : String × String → ℚ) (p : List String)
    (hpnd : p.Nodup)
    (hchar : ∀ i j : String, i ∈ p → j ∈ p → i ≠ j →
      (xv (i, j) = 1 ↔ (i, j) ∈ cycEdges p)) :
    ∀ (rest done left : List String) (cur : String) (fuel : ℕ),
      p = done ++ cur :: rest → left.Perm rest → rest.length ≤ fuel →
      decodeLoop xv fuel cur left = some rest := by
  intro rest
  induction rest with
  | nil =>
    intro done left cur fuel hp hperm _
    have hleft : left = [] := List.Perm.eq_nil hperm
    subst hleft
    cases fuel <;> rfl
  | cons r rest' ih =>
    intro done left cur fuel hp hperm hfuel
    have hlen : left.length = rest'.length + 1 := by
      rw [hperm.length_eq]
      rfl
    have hleftne : left ≠ [] := by
      intro h
      rw [h] at hlen
      simp at hlen
    obtain ⟨fuel', rfl⟩ : ∃ f', fuel = f' + 1 := ⟨fuel - 1, by
      simp only [List.length_cons] at hfuel
      omega⟩
    have hplen : 2 ≤ p.length := by
      rw [hp]
      simp only [List.length_append, List.length_cons]
      omega
    have hcurp : cur ∈ p := by
      rw [hp]
      exact List.mem_append_right _ (List.mem_cons_self _ _)
    have hrp : r ∈ p := by
      rw [hp]
      exact List.mem_append_right _
        (List.mem_cons_of_mem _ (List.mem_cons_self _ _))
    have hcurrest : cur ∉ r :: rest' := by
      have hpnd' := hpnd
      rw [hp] at hpnd'
      exact (List.nodup_cons.mp ((List.nodup_append.mp hpnd').2.1)).1
    have hedge : (cur, r) ∈ cycEdges p := by
      rw [cycEdges_eq p (by rw [hp]; simp)]
      apply List.mem_append_left
      rw [hp]
      exact adjacent_mem_zip_tail done rest' cur r
    have hcurr : cur ≠ r := fun h =>
      hcurrest (h ▸ List.mem_cons_self _ _)
    have hxcr : xv (cur, r) = 1 := (hchar cur r hcurp hrp hcurr).mpr hedge
    have hrleft : r ∈ left := hperm.mem_iff.mpr (List.mem_cons_self _ _)
    have huniq : ∀ k ∈ left, codeEdgeTest (xv (cur, k)) = true → k = r := by
      intro k hkleft htest
      have hkrest : k ∈ r :: rest' := hperm.mem_iff.mp hkleft
      have hkp : k ∈ p := by
        rw [hp]
        exact List.mem_append_right _ (List.mem_cons_of_mem _ hkrest)
      have hkcur : cur ≠ k := fun h => hcurrest (h ▸ hkrest)
      rw [codeEdgeTest, decide_eq_true_iff] at htest
      have hke : (cur, k) ∈ cycEdges p := (hchar cur k hcurp hkp hkcur).mp htest
      exact cycEdges_fst_unique hpnd hke hedge
    have hfind : findNext xv cur left = some r := by
      rw [findNext]
      apply find?_eq_some_of_unique left _ r hrleft
      · rw [codeEdgeTest, decide_eq_true_iff]
        exact hxcr
      · exact huniq
    have hperm' : (left.erase r).Perm rest' := by
      have := hperm.erase r
      rwa [List.erase_cons_head] at this
    have hrec := ih (done ++ [cur]) (left.erase r) r fuel'
      (by rw [hp]; simp) hperm'
      (by simp only [List.length_cons] at hfuel; omega)
    have hempty : left.isEmpty = false := by
      cases left with
      | nil => exact absurd rfl hleftne
      | cons _ _ => rfl
    simp only [decodeLoop, hempty, hfind]
    rw [hrec]
    rfl

lemma decodeTourFrom_eq (sites : List String) (xv : String × String → ℚ)
    (org₀ : String) (p : List String) (hnd : sites.Nodup)
    (hperm : p.Perm sites) (hhead : p.head? = some org₀)
    (hchar : ∀ i j : String, i ∈ sites → j ∈ sites → i ≠ j →
      (xv (i, j) = 1 ↔ (i, j) ∈ cycEdges p)) :
    decodeTourFrom sites xv org₀ = some (p ++ ["org"]) := by
  obtain ⟨pt, rfl⟩ : ∃ pt, p = org₀ :: pt := by
    cases p with
    | nil => cases hhead
    | cons a pt =>
      rw [List.head?_cons, Option.some.injEq] at hhead
      exact ⟨pt, by rw [hhead]⟩
  have hpnd : (org₀ :: pt).Nodup := (hperm.nodup_iff).mpr hnd
  have horg : org₀ ∈ sites := hperm.mem_iff.mp (List.mem_cons_self _ _)
  have hchar' : ∀ i j : String, i ∈ (org₀ :: pt) → j ∈ (org₀ :: pt) → i ≠ j →
      (xv (i, j) = 1 ↔ (i, j) ∈ cycEdges (org₀ :: pt)) := by
    intro i j hi hj hij
    exact hchar i j (hperm.mem_iff.mp hi) (hperm.mem_iff.mp hj) hij
  have hel : (sites.erase org₀).Perm pt := by
    have := (hperm.symm).erase org₀
    rwa [List.erase_cons_head] at this
  have hlen : pt.length ≤ sites.length := by
    have := hperm.length_eq
    simp only [List.length_cons] at this
    omega
  have hloop := decodeLoop_follows_cycle xv (org₀ :: pt) hpnd hchar'
    pt [] (sites.erase org₀) org₀ sites.length rfl hel hlen
  rw [decodeTourFrom, if_pos horg, hloop]
  rfl

lemma legPairs_close (p : List String) (h : p ≠ [])
    (hhead : p.head h = "org") :
    legPairs (p ++ ["org"]) = cycEdges p := by
  obtain ⟨a, l, rfl⟩ := List.exists_cons_of_ne_nil h
  have ha : a = "org" := hhead
  subst ha
  show (("org" :: l) ++ ["org"]).zip ((("org" :: l) ++ ["org"]).tail) = _
  have h1 : (("org" :: l) ++ ["org"]).tail = l ++ ["org"] := rfl
  rw [h1]
  have h2 : ("org" :: l) ++ ["org"] = ("org" :: l) ++ ["org"] := rfl
  have h3 : (("org" :: l) ++ ["org"]).zip (l ++ ["org"])
      = ("org" :: l).zip (l ++ ["org"]) :=
    zip_left_trunc _ _ _ (by simp)
  rw [h3]
  simp [cycEdges]

lemma tourLegs_all_some (dOpt : String × String → Option ℤ)
    (d : String × String → ℤ) :
    ∀ l : List (String × String), (∀ pr ∈ l, dOpt pr = some (d pr)) →
      tourLegs dOpt l = some (l.map d) := by
  intro l
  induction l with
  | nil => intro _; rfl
  | cons pr rest ih =>
    intro h
    have h1 := h pr (List.mem_cons_self _ _)
    have h2 := ih (fun q hq => h q (List.mem_cons_of_mem _ hq))
    rw [tourLegs, h1, h2]
    rfl

/-! ### Claim C6 -/

/-- C6: for every exact 0/1 solver assignment encoding a single Hamiltonian
cycle `p` through the notebook's origin label "org" over a duplicate-free
site list, the tour decoder succeeds and returns `p ++ ["org"]`: a sequence
of exactly N+1 labels whose first and last entries equal "org" with no
repeated intermediate site, whose N consecutive pairs are exactly the
cycle's edges, and whose `tour_legs` are exactly the distances of those
consecutive pairs — so the reported total is their sum. -/
theorem C6_decoded_tour_shape_and_cost (sites : List String)
    (xv : String × String → ℚ) (d : String × String → ℤ)
    (dOpt : String × String → Option ℤ) (p : List String)
    (hnd : sites.Nodup) (h3 : 3 ≤ sites.length)
    (hperm : p.Perm sites) (hhead : p.head? = some "org")
    (hchar : ∀ i j : String, i ∈ sites → j ∈ sites → i ≠ j →
      (xv (i, j) = 1 ↔ (i, j) ∈ cycEdges p))
    (hdOpt : ∀ pr ∈ allPairs sites, dOpt pr = some (d pr)) :
    decodeTour sites xv = some (p ++ ["org"]) ∧
    (p ++ ["org"]).length = sites.length + 1 ∧
    (p ++ ["org"]).head? = some "org" ∧
    (p ++ ["org"]).getLast? = some "org" ∧
    p.Nodup ∧
    legPairs (p ++ ["org"]) = cycEdges p ∧
    (legPairs (p ++ ["org"])).length = sites.length ∧
    tourLegs dOpt (legPairs (p ++ ["org"]))
      = some ((legPairs (p ++ ["org"])).map d) := by
  have hpne : p ≠ [] := by
    intro h
    rw [h] at hhead
    cases hhead
  have hpnd : p.Nodup := (hperm.nodup_iff).mpr hnd
  have hplen : p.length = sites.length := hperm.length_eq
  have hheadv : p.head hpne = "org" := by
    rw [List.head?_eq_head hpne, Option.some.injEq] at hhead
    exact hhead
  have hlegs : legPairs (p ++ ["org"]) = cycEdges p := legPairs_close p hpne hheadv
  refine ⟨?_, ?_, ?_, ?_, hpnd, hlegs, ?_, ?_⟩
  · exact decodeTourFrom_eq sites xv "org" p hnd hperm hhead hchar
  · simp [hplen]
  · obtain ⟨pt, rfl⟩ : ∃ pt, p = "org" :: pt := by
      cases p with
      | nil => cases hhead
      | cons a pt =>
        rw [List.head?_cons, Option.some.injEq] at hhead
        exact ⟨pt, by rw [hhead]⟩
    rfl
  · exact List.getLast?_concat _
  · rw [hlegs, cycEdges_length, hplen]
  · apply tourLegs_all_some
    intro pr hpr
    rw [hlegs] at hpr
    apply hdOpt
    refine mem_allPairs.mpr ⟨?_, ?_, ?_⟩
    · exact hperm.mem_iff.mp (cycEdges_mem_fst hpr)
    · exact hperm.mem_iff.mp (cycEdges_mem_snd hpr)
    · exact cycEdges_ne hpnd (by omega) hpr

/-- C6 witness: the decoder run on the concrete three-site Hamiltonian
assignment org → A → B → org. -/
theorem C6_decoded_tour_shape_and_cost_witness :
    decodeTour ["org", "A", "B"]
        (fun pr => if pr ∈ cycEdges ["org", "A", "B"] then (1 : ℚ) else 0)
      = some (["org", "A", "B"] ++ ["org"]) :=
  (C6_decoded_tour_shape_and_cost ["org", "A", "B"]
    (fun pr => if pr ∈ cycEdges ["org", "A", "B"] then (1 : ℚ) else 0)
    (fun _ => 10)
    (fun pr => if pr ∈ allPairs ["org", "A", "B"] then some 10 else none)
    ["org", "A", "B"]
    (by decide) (by decide) (List.Perm.refl _) rfl
    (by
      intro i j hi hj hij
      fin_cases hi <;> fin_cases hj <;>
        first
        | exact absurd rfl hij
        | decide)
    (by decide)).1

/-! ### Claims C9 and C10 -/

lemma decodeStep_perm (sites : List String) (xv : String × String → ℚ)
    (org₀ : String) (horg : org₀ ∈ sites) :
    ∀ (n : ℕ) (tour left : List String) (cur : String),
      (decodeStep xv)^[n] (decodeInit sites org₀) = (tour, left, cur) →
      (tour ++ left).Perm sites := by
  intro n
  induction n with
  | zero =>
    intro tour left cur h
    simp only [Function.iterate_zero_apply, decodeInit, Prod.mk.injEq] at h
    obtain ⟨h1, h2, _⟩ := h
    subst h1
    subst h2
    have := List.perm_cons_erase horg
    simpa using this.symm
  | succ n ih =>
    intro tour left cur h
    rw [Function.iterate_succ_apply'] at h
    rcases hp : (decodeStep xv)^[n] (decodeInit sites org₀) with ⟨t0, rest0⟩
    obtain ⟨l0, c0⟩ := rest0
    rw [hp] at h
    have hprev := ih t0 l0 c0 hp
    rw [decodeStep] at h
    by_cases hl0 : l0.isEmpty = true
    · rw [if_pos hl0] at h
      simp only [Prod.mk.injEq] at h
      obtain ⟨h1, h2, _⟩ := h
      subst h1
      subst h2
      exact hprev
    · rw [if_neg hl0] at h
      cases hfind : findNext xv c0 l0 with
      | none =>
        rw [hfind] at h
        simp only [Prod.mk.injEq] at h
        obtain ⟨h1, h2, _⟩ := h
        subst h1
        subst h2
        exact hprev
      | some k =>
        rw [hfind] at h
        simp only [Prod.mk.injEq] at h
        obtain ⟨h1, h2, _⟩ := h
        subst h1
        subst h2
        have hk : k ∈ l0 := List.mem_of_find?_eq_some hfind
        have heq : (t0 ++ [k]) ++ l0.erase k = t0 ++ (k :: l0.erase k) := by
          rw [List.append_assoc]
          rfl
        rw [heq]
        have hperm2 : (k :: l0.erase k).Perm l0 := (List.perm_cons_erase hk).symm
        exact (hperm2.append_left t0).trans hprev

/-- C9: throughout the reconstruction loop, after any number of iterations
from the initialised state, the appended tour and the remaining sites_left
are disjoint and together are a permutation of the site list (their lengths
sum to N); the tour has no duplicates, since each selected site is appended
and simultaneously removed from sites_left. -/
theorem C9_reconstruction_invariant (sites : List String)
    (xv : String × String → ℚ) (org₀ : String)
    (hnd : sites.Nodup) (horg : org₀ ∈ sites) :
    ∀ (n : ℕ) (tour left : List String) (cur : String),
      (decodeStep xv)^[n] (decodeInit sites org₀) = (tour, left, cur) →
      (tour ++ left).Perm sites ∧
      tour.length + left.length = sites.length ∧
      tour.Nodup ∧ left.Nodup ∧
      ∀ a ∈ tour, a ∉ left := by
  intro n tour left cur h
  have hperm := decodeStep_perm sites xv org₀ horg n tour left cur h
  have hnd2 : (tour ++ left).Nodup := (hperm.nodup_iff).mpr hnd
  rw [List.nodup_append] at hnd2
  refine ⟨hperm, ?_, hnd2.1, hnd2.2.1, fun a ha hal => hnd2.2.2 ha hal⟩
  have hlen := hperm.length_eq
  rw [List.length_append] at hlen
  exact hlen

/-- C9 witness: the invariant after one iteration of the concrete run in
which no edge value passes the test (the state is unchanged). -/
theorem C9_reconstruction_invariant_witness :
    (["org", "A"] : List String).Nodup ∧
    "org" ∈ (["org", "A"] : List String) ∧
    (((["org"] : List String) ++ ["A"]).Perm ["org", "A"] ∧
      (["org"] : List String).length + (["A"] : List String).length
        = (["org", "A"] : List String).length ∧
      (["org"] : List String).Nodup ∧ (["A"] : List String).Nodup ∧
      ∀ a ∈ (["org"] : List String), a ∉ (["A"] : List String)) :=
  ⟨by decide, by decide,
    C9_reconstruction_invariant ["org", "A"] (fun _ => (0 : ℚ)) "org"
      (by decide) (by decide) 1 ["org"] ["A"] "org" (by decide)⟩

/-- C10: a successful decode always closes with the hard-coded literal
label "org" regardless of the site the walk started from, while it opens
with the starting site; hence the decoded sequence starts and ends at the
same site exactly when the starting origin's label is "org". -/
theorem C10_closing_literal_org (sites : List String)
    (xv : String × String → ℚ) (org₀ : String) (t : List String)
    (h : decodeTourFrom sites xv org₀ = some t) :
    t.getLast? = some "org" ∧ t.head? = some org₀ ∧
      (t.head? = t.getLast? ↔ org₀ = "org") := by
  rw [decodeTourFrom] at h
  by_cases horg : org₀ ∈ sites
  · rw [if_pos horg] at h
    cases hdl : decodeLoop xv sites.length org₀ (sites.erase org₀) with
    | none =>
      rw [hdl] at h
      cases h
    | some r =>
      rw [hdl] at h
      have ht : t = org₀ :: r ++ ["org"] := by
        simpa using h.symm
      subst ht
      have hshape : org₀ :: r ++ ["org"] = (org₀ :: r) ++ ["org"] := rfl
      have hlast : (org₀ :: r ++ ["org"]).getLast? = some "org" := by
        rw [hshape]
        exact List.getLast?_concat _
      have hheadt : (org₀ :: r ++ ["org"]).head? = some org₀ := rfl
      refine ⟨hlast, hheadt, ?_⟩
      constructor
      · intro he
        rw [hheadt, hlast] at he
        exact Option.some.inj he
      · intro he
        rw [hheadt, hlast, he]
  · rw [if_neg horg] at h
    cases h

/-- C10 witness: a concrete run started at origin "home" still closes with
the literal "org", so first and last differ. -/
theorem C10_closing_literal_org_witness :
    decodeTourFrom ["home", "A"]
        (fun pr => if pr = ("home", "A") then (1 : ℚ) else 0) "home"
      = some ["home", "A", "org"] ∧
    ((["home", "A", "org"] : List String).getLast? = some "org" ∧
      (["home", "A", "org"] : List String).head? = some "home" ∧
      ((["home", "A", "org"] : List String).head?
          = (["home", "A", "org"] : List String).getLast? ↔ "home" = "org")) :=
  ⟨by decide, C10_closing_literal_org ["home", "A"]
    (fun pr => if pr = ("home", "A") then (1 : ℚ) else 0) "home"
    ["home", "A", "org"] (by decide)⟩

end TSPNotebook
